import Mathlib

/-!
Verification of the `nyu-cusp-gtfs-bus` stop-sequence library
(`src/lib/gtfs_sequence.py` and `src/lib/line_string_util.py`).

Geometry is shallowly embedded over exact real arithmetic: a shapely
`Point` is a pair of reals, a `LineString` is its list of coordinates,
and the shapely operations the source calls (`length`, `interpolate`,
`project`, `distance`) are spelled out on that representation with the
Euclidean metric.  The geometric functions are `noncomputable` only
because they use `Real.sqrt`; everything else (the `Sequence` entity,
serialization, attribute reconciliation, geometry matching) is
computable and decidable.
-/

namespace GtfsBus

/-- A geographic coordinate (shapely `Point`) as an (x, y) pair of reals. -/
abbrev Pt : Type := ℝ × ℝ

/-- Planar dot product. -/
def dot (u v : Pt) : ℝ := u.1 * v.1 + u.2 * v.2

/-- Squared Euclidean distance between two points. -/
def dist2 (p q : Pt) : ℝ := (q.1 - p.1) ^ 2 + (q.2 - p.2) ^ 2

/-- Euclidean distance between two points (shapely `Point.distance`). -/
noncomputable def ptDist (p q : Pt) : ℝ := Real.sqrt (dist2 p q)

/-- The point `p + t * (q - p)` on the line through `p` and `q`. -/
def lerp (p q : Pt) (t : ℝ) : Pt :=
  (p.1 + t * (q.1 - p.1), p.2 + t * (q.2 - p.2))

/-- Arc length of a polyline (shapely `LineString.length`): the sum of the
Euclidean lengths of its segments. -/
noncomputable def lineLength : List Pt → ℝ
  | p :: q :: rest => ptDist p q + lineLength (q :: rest)
  | _ => 0

/-- Shapely `LineString.interpolate`: the point at the given arc-length
position along the polyline, walking the segments in order.  The source
only ever calls it with a position between 0 and the total length, which
is the range modelled here. -/
noncomputable def interpolate : List Pt → ℝ → Pt
  | [], _ => (0, 0)
  | [p], _ => p
  | p :: q :: rest, d =>
    if d ≤ ptDist p q then lerp p q (d / ptDist p q)
    else interpolate (q :: rest) (d - ptDist p q)

/-- Parameter in `[0, 1]` of the point of segment `p`-`q` nearest to `c`
(the clamped orthogonal-projection parameter; 0 for a degenerate
segment, since division by zero yields zero). -/
noncomputable def nearParam (c p q : Pt) : ℝ :=
  min 1 (max 0 (dot (c - p) (q - p) / dist2 p q))

/-- Worker for shapely `LineString.project`: scans the segments in order
and returns the pair (squared distance, arc-length position) of the
nearest point of the polyline to `c`, preferring the earliest position
on ties. -/
noncomputable def projGo (c : Pt) : List Pt → ℝ × ℝ
  | [] => (dist2 c (0, 0), 0)
  | [p] => (dist2 c p, 0)
  | p :: q :: rest =>
    if (projGo c (q :: rest)).1 < dist2 c (lerp p q (nearParam c p q)) then
      ((projGo c (q :: rest)).1, ptDist p q + (projGo c (q :: rest)).2)
    else
      (dist2 c (lerp p q (nearParam c p q)), nearParam c p q * ptDist p q)

/-- Shapely `LineString.project`: the arc-length position along the
polyline of the point nearest to `c`. -/
noncomputable def project (line : List Pt) (c : Pt) : ℝ :=
  (projGo c line).2

/-- `snap_coord` from gtfs_sequence.py:
`geometry.interpolate(geometry.project(coord))`. -/
noncomputable def snap_coord (coord : Pt) (geometry : List Pt) : Pt :=
  interpolate geometry (project geometry coord)

/-- The fixed degrees-to-meters approximation factor `0.11 / 0.000001`
that appears inline in `calculate_stop_distances` (as a multiplier) and
in `segment_by_distances` (as a divisor). -/
noncomputable def DEG_TO_M : ℝ := 0.11 / 0.000001

/-- The per-leg converted distances appended by
`Sequence.calculate_stop_distances` after the initial 0:
`p1.distance(p2) * (0.11 / 0.000001)` for each consecutive pair. -/
noncomputable def legDistances : List Pt → List ℝ
  | p :: q :: rest => ptDist p q * DEG_TO_M :: legDistances (q :: rest)
  | _ => []

/-- `Sequence.calculate_stop_distances` from gtfs_sequence.py, as a
function of the snapped stop coordinates (`self.stop_coords`, a parallel
array of `self.length` points): starts at `[0]` and appends, for each
`i`, the converted distance between coordinates `i` and `i + 1`. -/
noncomputable def calculate_stop_distances (stop_coords : List Pt) : List ℝ :=
  0 :: legDistances stop_coords

/-- Loop body of `cut` from line_string_util.py.  Iterates over
`enumerate(coords)` (the remaining coordinates paired with index `i`),
comparing each coordinate's projected position with the target
distance.  `none` models the Python function falling off the loop and
returning `None`. -/
noncomputable def cutLoop (line : List Pt) (d : ℝ) : List Pt → ℕ → Option (List Pt × List Pt)
  | [], _ => none
  | c :: cs, i =>
    if project line c = d then
      some (line.take (i + 1), line.drop i)
    else if project line c > d then
      some (line.take i ++ [interpolate line d], interpolate line d :: line.drop i)
    else
      cutLoop line d cs (i + 1)

/-- `cut` from line_string_util.py.  Returns `some [line]` when the
distance cannot segment the line, otherwise scans the coordinates; the
result is `none` exactly when the Python function returns `None`. -/
noncomputable def cut (line : List Pt) (d : ℝ) : Option (List (List Pt)) :=
  if d ≤ 0 ∨ lineLength line ≤ d then some [line]
  else (cutLoop line d line 0).map fun pr => [pr.1, pr.2]

/-- Loop of `segment_by_distances` from line_string_util.py over
`distances[1:]`: cuts the current line at each converted distance,
collecting the leading pieces and threading the remainder.  A `none`
result models the Python `TypeError` raised by `split_segments[0]` when
`cut` returned `None`. -/
noncomputable def segLoop : List Pt → List ℝ → Option (List (List Pt) × List Pt)
  | current, [] => some ([], current)
  | current, d :: ds =>
    match cut current (d / DEG_TO_M) with
    | some [s] => (segLoop current ds).map fun r => (s :: r.1, r.2)
    | some [a, b] => (segLoop b ds).map fun r => (a :: r.1, r.2)
    | _ => none

/-- `segment_by_distances` from line_string_util.py.  Returns the list
of segments together with the parallel `start_value`/`end_value`
columns.  `none` models the Python call raising: a `TypeError` from
indexing a `None` cut, an `IndexError` from `values[-1]` on an empty
`values`, or the `ValueError` raised by the final `GeoDataFrame`
construction when the geometry column and the value columns have
different lengths. -/
noncomputable def segment_by_distances {V : Type} (line : List Pt)
    (distances : List ℝ) (values : List V) :
    Option (List (List Pt) × List V × List V) :=
  match segLoop line distances.tail with
  | none => none
  | some (segs, current) =>
    match values.getLast? with
    | none => none
    | some v =>
      let starts := (if values.length = distances.length then values.dropLast else []) ++ [v]
      let ends := (if values.length = distances.length then values.tail else []) ++ [v]
      let allSegs := segs ++ [current]
      if allSegs.length = starts.length then some (allSegs, starts, ends) else none

/-- The closed segment between `p` and `q`, as the set of points
`lerp p q t` for `t` in `[0, 1]`.  Used to state that a list of cut
pieces traces the same curve as the original polyline. -/
def seg (p q : Pt) : Set Pt := {z | ∃ t, 0 ≤ t ∧ t ≤ 1 ∧ z = lerp p q t}

/-- The set of points traced by a polyline: the union of its segments. -/
def pathSet : List Pt → Set Pt
  | p :: q :: rest => seg p q ∪ pathSet (q :: rest)
  | _ => ∅

/-- A polyline each of whose vertices projects onto its own cumulative
arc-length position (true of any polyline that never passes strictly
closer to an earlier position than a vertex's own position; `cut`
implicitly assumes this when it uses `line.project` as a cumulative
distance). -/
def Proper (l : List Pt) : Prop :=
  ∀ i (h : i < l.length), project l l[i] = lineLength (l.take (i + 1))

/-! ## The `Sequence` entity and its serialization -/

/-- An ISO-8601 timestamp, modelled by its string form.
`datetime.fromisoformat` and `datetime.isoformat` are mutually inverse
on this representation, so the (de)serialization helpers are the
identity on it. -/
abbrev TripTime : Type := String

/-- `deserialize_trip_time` from gtfs_sequence.py (`fromisoformat`). -/
def deserialize_trip_time (t : String) : TripTime := t

/-- `serialize_trip_time` from gtfs_sequence.py (`isoformat`). -/
def serialize_trip_time (t : TripTime) : String := t

/-- `deserialize_trip_times` from gtfs_sequence.py. -/
def deserialize_trip_times (ts : List String) : List TripTime :=
  ts.map deserialize_trip_time

/-- `serialize_trip_times` from gtfs_sequence.py. -/
def serialize_trip_times (ts : List TripTime) : List String :=
  ts.map serialize_trip_time

/-- `deserialize_trip_times_dict` from gtfs_sequence.py; the dict is
modelled as an association list in insertion order. -/
def deserialize_trip_times_dict (d : List (String × List String)) :
    List (String × List TripTime) :=
  d.map fun pr => (pr.1, deserialize_trip_times pr.2)

/-- `serialize_trip_times_dict` from gtfs_sequence.py. -/
def serialize_trip_times_dict (d : List (String × List TripTime)) :
    List (String × List String) :=
  d.map fun pr => (pr.1, serialize_trip_times pr.2)

/-- A stop coordinate as stored on a `Sequence`; rationals suffice for
the serialization claims, which never do arithmetic on coordinates. -/
abbrev Coord : Type := ℚ × ℚ

/-- `deserialize_coord` from gtfs_sequence.py: `Point(values[0], values[1])`. -/
def deserialize_coord (values : ℚ × ℚ) : Coord := (values.1, values.2)

/-- `serialize_coord` from gtfs_sequence.py: `[coord.x, coord.y]`. -/
def serialize_coord (coord : Coord) : ℚ × ℚ := (coord.1, coord.2)

/-- The fields of a `Sequence` (gtfs_sequence.py), including the two
derived fields `length` and `trip_ids_set` that `__init__` computes. -/
structure Sequence where
  direction_id : ℤ
  route_id : String
  service_id : String
  shape_id : String
  stop_distances : List ℚ
  stop_ids : List ℤ
  trip_durations_dict : List (String × List ℚ)
  trip_headsign : String
  trip_ids : List String
  trip_speeds_dict : List (String × List ℚ)
  stop_coords : List Coord
  trip_times_dict : List (String × List TripTime)
  length : ℕ
  trip_ids_set : List String
  deriving Repr, DecidableEq

/-- The persisted dictionary representation produced by
`Sequence.to_dict` and consumed by the `load_dict` branch of
`Sequence.__init__`. -/
structure SequenceDict where
  direction_id : ℤ
  route_id : String
  service_id : String
  shape_id : String
  stop_coords : List (ℚ × ℚ)
  stop_distances : List ℚ
  stop_ids : List ℤ
  trip_headsign : String
  trip_ids : List String
  trip_durations_dict : List (String × List ℚ)
  trip_speeds_dict : List (String × List ℚ)
  trip_times_dict : List (String × List String)
  deriving Repr, DecidableEq

/-- `Sequence.to_dict` from gtfs_sequence.py, line 215.  Note that the
source assigns `self.trip_headsign` to the `'service_id'` key. -/
def Sequence.to_dict (s : Sequence) : SequenceDict where
  direction_id := s.direction_id
  route_id := s.route_id
  service_id := s.trip_headsign
  shape_id := s.shape_id
  stop_coords := s.stop_coords.map serialize_coord
  stop_distances := s.stop_distances
  stop_ids := s.stop_ids
  trip_headsign := s.trip_headsign
  trip_ids := s.trip_ids
  trip_durations_dict := s.trip_durations_dict
  trip_speeds_dict := s.trip_speeds_dict
  trip_times_dict := serialize_trip_times_dict s.trip_times_dict

/-- The `load_dict` branch of `Sequence.__init__` (gtfs_sequence.py,
lines 69-85 plus the trailing lines 104-105 that set `length` and
`trip_ids_set`). -/
def Sequence.from_dict (d : SequenceDict) : Sequence where
  direction_id := d.direction_id
  route_id := d.route_id
  service_id := d.service_id
  shape_id := d.shape_id
  stop_distances := d.stop_distances
  stop_ids := d.stop_ids
  trip_durations_dict := d.trip_durations_dict
  trip_headsign := d.trip_headsign
  trip_ids := d.trip_ids
  trip_speeds_dict := d.trip_speeds_dict
  stop_coords := d.stop_coords.map deserialize_coord
  trip_times_dict := deserialize_trip_times_dict d.trip_times_dict
  length := d.stop_ids.length
  trip_ids_set := d.trip_ids.eraseDups

/-- `Sequence.get_route_dir`: the composite key `f'{route_id}_{direction_id}'`. -/
def Sequence.get_route_dir (s : Sequence) : String :=
  s.route_id ++ "_" ++ toString s.direction_id

/-- `Sequence.assign_route_geometry` from gtfs_sequence.py, line 114.
The GeoDataFrame is modelled as a list of (`route_dir`, geometry) rows.
`Except.ok none` is the `return False` path (no match, nothing
assigned), `Except.ok (some g)` is the `return True` path with `g`
assigned to `self.route_geometry`, and `Except.error` is the raised
exception for multiple matches. -/
def Sequence.assign_route_geometry {G : Type} (s : Sequence)
    (routes_gdf : List (String × G)) : Except String (Option G) :=
  let matching_rows := routes_gdf.filter fun r => r.1 == s.get_route_dir
  if matching_rows.length = 0 then Except.ok none
  else if matching_rows.length > 1 then
    Except.error "Multiple route geometries matched"
  else Except.ok (matching_rows.head?.map Prod.snd)

/-! ## Attribute reconciliation -/

/-- The distinct values of a list in first-occurrence order: the
iteration order of the Python `Counter` built in `most_common`
(insertion-ordered dict keys). -/
def firstOccs {α : Type} [DecidableEq α] : List α → List α
  | [] => []
  | x :: xs => x :: (firstOccs xs).filter fun y => decide (y ≠ x)

/-- `most_common` from gtfs_sequence.py:
`Counter(list).most_common(1)[0][0]`.  `Counter.most_common` sorts the
insertion-ordered (value, count) pairs by count, stably, so the result
is the first key in first-occurrence order whose count is maximal.
The Python call raises `IndexError` on an empty list; `default` stands
in for that unreachable case. -/
def most_common {α : Type} [DecidableEq α] [Inhabited α] (l : List α) : α :=
  match firstOccs l with
  | [] => default
  | k :: ks => ks.foldl (fun best x => if l.count best < l.count x then x else best) k

/-- `Sequence.get_most_common` from gtfs_sequence.py, line 183: looks up
the given column of `trips_df` for each trip id and takes the most
common value.  The read-only per-trip attribute table (one column of
`trips_df.loc`) is modelled as a lookup function. -/
def get_most_common {α : Type} [DecidableEq α] [Inhabited α]
    (trips_df : String → α) (trip_ids : List String) : α :=
  most_common (trip_ids.map trips_df)

/-- Modelled from the claim's words, for comparison with `most_common`:
scan the input in order and return the first value whose running
occurrence count reaches the maximum final count (`none` on an empty
list). -/
def reachScan {α : Type} [DecidableEq α] (M : ℕ) : List α → List α → Option α
  | _, [] => none
  | seen, x :: rest =>
    if (seen ++ [x]).count x = M then some x
    else reachScan M (seen ++ [x]) rest

/-- Modelled from the claim's words: "the first value to reach the
maximum count in input iteration order". -/
def firstToReachMax {α : Type} [DecidableEq α] (l : List α) : Option α :=
  reachScan ((l.map fun v => l.count v).foldr max 0) [] l

/-! ## Concrete inputs used by the closed theorems below -/

/-- A unit-length straight route geometry. -/
noncomputable def lineA : List Pt := [((0:ℝ), (0:ℝ)), ((1:ℝ), (0:ℝ))]

/-- The remainder of `lineA` after cutting at arc length `1 / 1100`. -/
noncomputable def lineB : List Pt := [((1/1100 : ℝ), (0:ℝ)), ((1:ℝ), (0:ℝ))]

/-- A straight geometry of length 2. -/
noncomputable def lineC : List Pt := [((0:ℝ), (0:ℝ)), ((2:ℝ), (0:ℝ))]

/-- A degenerate out-and-back geometry: it doubles back onto itself, so
later vertices project to earlier arc-length positions. -/
noncomputable def loopLine : List Pt :=
  [((0:ℝ), (0:ℝ)), ((1:ℝ), (0:ℝ)), ((0:ℝ), (0:ℝ))]

/-- Snapped stop coordinates with a long first leg and a short second
leg. -/
noncomputable def cexCoords : List Pt :=
  [((0:ℝ), (0:ℝ)), ((2:ℝ), (0:ℝ)), ((3:ℝ), (0:ℝ))]

/-- A sample sequence whose `service_id` differs from its
`trip_headsign`. -/
def sampleSeq : Sequence where
  direction_id := 0
  route_id := "M15"
  service_id := "WKD"
  shape_id := "S1"
  stop_distances := []
  stop_ids := [101]
  trip_durations_dict := []
  trip_headsign := "South Ferry"
  trip_ids := ["t1"]
  trip_speeds_dict := []
  stop_coords := []
  trip_times_dict := []
  length := 1
  trip_ids_set := ["t1"]

/-- A sample per-trip attribute column in which values 1 and 0 tie with
two occurrences each: 1 occurs first, but 0 is the first to reach the
maximum count. -/
def sampleTable : String → ℕ := fun s => if s = "t1" ∨ s = "t4" then 1 else 0

/-- The trip ids read against `sampleTable`. -/
def sampleTripIds : List String := ["t1", "t2", "t3", "t4"]

/-! ## Basic metric lemmas -/

theorem dist2_nonneg (p q : Pt) : 0 ≤ dist2 p q := by
  unfold dist2; positivity

theorem dist2_self (p : Pt) : dist2 p p = 0 := by
  simp [dist2]

theorem dist2_eq_zero {p q : Pt} (h : dist2 p q = 0) : q = p := by
  unfold dist2 at h
  have h1 : (q.1 - p.1) ^ 2 = 0 := by nlinarith [sq_nonneg (q.1 - p.1), sq_nonneg (q.2 - p.2)]
  have h2 : (q.2 - p.2) ^ 2 = 0 := by nlinarith [sq_nonneg (q.1 - p.1), sq_nonneg (q.2 - p.2)]
  have e1 : q.1 = p.1 := by nlinarith [sq_nonneg (q.1 - p.1)]
  have e2 : q.2 = p.2 := by nlinarith [sq_nonneg (q.2 - p.2)]
  exact Prod.ext e1 e2

theorem ptDist_nonneg (p q : Pt) : 0 ≤ ptDist p q := Real.sqrt_nonneg _

theorem ptDist_self (p : Pt) : ptDist p p = 0 := by
  simp [ptDist, dist2_self]

theorem ptDist_eq_zero {p q : Pt} (h : ptDist p q = 0) : q = p := by
  have := Real.sqrt_eq_zero (dist2_nonneg p q) |>.mp h
  exact dist2_eq_zero this

theorem eq_of_ptDist_eq_zero {p q : Pt} (h : ptDist p q = 0) : p = q :=
  (ptDist_eq_zero h).symm

theorem lerp_zero (p q : Pt) : lerp p q 0 = p := by
  simp [lerp]

theorem lerp_one (p q : Pt) : lerp p q 1 = q := by
  simp [lerp]

theorem lerp_self (p : Pt) (t : ℝ) : lerp p p t = p := by
  simp [lerp]

theorem dist2_lerp_left (p q : Pt) (t : ℝ) :
    dist2 p (lerp p q t) = t ^ 2 * dist2 p q := by
  simp only [dist2, lerp]; ring

theorem dist2_lerp_right (p q : Pt) (t : ℝ) :
    dist2 (lerp p q t) q = (1 - t) ^ 2 * dist2 p q := by
  simp only [dist2, lerp]; ring

theorem ptDist_lerp_left (p q : Pt) {t : ℝ} (ht : 0 ≤ t) :
    ptDist p (lerp p q t) = t * ptDist p q := by
  rw [ptDist, dist2_lerp_left, Real.sqrt_mul (sq_nonneg t), Real.sqrt_sq ht, ptDist]

theorem ptDist_lerp_right (p q : Pt) {t : ℝ} (ht : t ≤ 1) :
    ptDist (lerp p q t) q = (1 - t) * ptDist p q := by
  rw [ptDist, dist2_lerp_right, Real.sqrt_mul (sq_nonneg (1 - t)),
    Real.sqrt_sq (by linarith), ptDist]

theorem lerp_lerp_left (p q : Pt) (t u : ℝ) :
    lerp p (lerp p q t) u = lerp p q (u * t) := by
  simp only [lerp]
  exact Prod.ext (by ring) (by ring)

theorem lerp_lerp_right (p q : Pt) (t u : ℝ) :
    lerp (lerp p q t) q u = lerp p q (t + u * (1 - t)) := by
  simp only [lerp]
  exact Prod.ext (by ring) (by ring)

theorem lerp_eq_of_eq (p q : Pt) {t u : ℝ} (h : t = u) : lerp p q t = lerp p q u := by
  rw [h]

/-! ## Segment-set lemmas -/

theorem mem_seg_iff {p q z : Pt} : z ∈ seg p q ↔ ∃ t, 0 ≤ t ∧ t ≤ 1 ∧ z = lerp p q t :=
  Iff.rfl

theorem left_mem_seg (p q : Pt) : p ∈ seg p q :=
  ⟨0, le_refl 0, zero_le_one, (lerp_zero p q).symm⟩

theorem right_mem_seg (p q : Pt) : q ∈ seg p q :=
  ⟨1, zero_le_one, le_refl 1, (lerp_one p q).symm⟩

theorem lerp_mem_seg (p q : Pt) {t : ℝ} (h0 : 0 ≤ t) (h1 : t ≤ 1) :
    lerp p q t ∈ seg p q :=
  ⟨t, h0, h1, rfl⟩

theorem seg_self (p : Pt) : seg p p = {p} := by
  ext z
  constructor
  · rintro ⟨t, -, -, rfl⟩; simp [lerp_self]
  · intro hz
    rw [Set.mem_singleton_iff] at hz
    subst hz
    exact left_mem_seg _ _

/-- Splitting a segment at an interior point: the two halves cover
exactly the original segment. -/
theorem seg_split (p q : Pt) {t : ℝ} (h0 : 0 ≤ t) (h1 : t ≤ 1) :
    seg p (lerp p q t) ∪ seg (lerp p q t) q = seg p q := by
  ext z
  constructor
  · rintro (⟨u, hu0, hu1, rfl⟩ | ⟨u, hu0, hu1, rfl⟩)
    · rw [lerp_lerp_left]
      exact lerp_mem_seg _ _ (by positivity) (by nlinarith)
    · rw [lerp_lerp_right]
      exact lerp_mem_seg _ _ (by nlinarith) (by nlinarith)
  · rintro ⟨s, hs0, hs1, rfl⟩
    rcases le_or_lt s t with hst | hst
    · rcases eq_or_lt_of_le h0 with ht0 | ht0
      · left
        have hs : s = 0 := le_antisymm (by linarith) hs0
        rw [hs, lerp_zero]
        exact left_mem_seg _ _
      · left
        refine ⟨s / t, by positivity, by rw [div_le_one ht0]; exact hst, ?_⟩
        rw [lerp_lerp_left]
        exact lerp_eq_of_eq _ _ (by field_simp)
    · right
      have ht1 : t < 1 := by linarith
      refine ⟨(s - t) / (1 - t), div_nonneg (by linarith) (by linarith), ?_, ?_⟩
      · rw [div_le_one (by linarith)]; linarith
      · rw [lerp_lerp_right]
        refine lerp_eq_of_eq _ _ ?_
        rw [div_mul_cancel₀ _ (ne_of_gt (show (0:ℝ) < 1 - t by linarith))]
        ring

/-! ## Polyline length lemmas -/

theorem lineLength_nil : lineLength [] = 0 := rfl

theorem lineLength_single (p : Pt) : lineLength [p] = 0 := rfl

theorem lineLength_cons_cons (p q : Pt) (rest : List Pt) :
    lineLength (p :: q :: rest) = ptDist p q + lineLength (q :: rest) := rfl

theorem lineLength_nonneg (l : List Pt) : 0 ≤ lineLength l := by
  induction l with
  | nil => simp [lineLength]
  | cons p rest ih =>
    cases rest with
    | nil => simp [lineLength]
    | cons q rest' =>
      rw [lineLength_cons_cons]
      exact add_nonneg (ptDist_nonneg p q) ih

theorem lineLength_cons_of_ne_nil (p : Pt) {w : List Pt} (h : w ≠ []) :
    lineLength (p :: w) = ptDist p (w.head h) + lineLength w := by
  cases w with
  | nil => exact absurd rfl h
  | cons q rest => rfl

theorem lineLength_append_single {xs : List Pt} (h : xs ≠ []) (y : Pt) :
    lineLength (xs ++ [y]) = lineLength xs + ptDist (xs.getLast h) y := by
  induction xs with
  | nil => exact absurd rfl h
  | cons x xs' ih =>
    cases xs' with
    | nil => simp [lineLength]
    | cons x' rest =>
      have hne : x' :: rest ≠ [] := by simp
      rw [List.cons_append, lineLength_cons_of_ne_nil x (by simp), ih hne,
        lineLength_cons_cons, List.getLast_cons hne]
      simp only [List.cons_append, List.head_cons]
      ring

/-- A polyline of positive length has at least two vertices. -/
theorem two_le_length_of_lineLength_pos {l : List Pt} (h : 0 < lineLength l) :
    2 ≤ l.length := by
  match l with
  | [] => simp [lineLength_nil] at h
  | [p] => simp [lineLength_single] at h
  | p :: q :: rest => simp

theorem lineLength_take_drop (l : List Pt) :
    ∀ k, k < l.length →
      lineLength (l.take (k + 1)) + lineLength (l.drop k) = lineLength l := by
  induction l with
  | nil => intro k hk; simp at hk
  | cons p rest ih =>
    intro k hk
    cases k with
    | zero => simp [lineLength_single]
    | succ k' =>
      cases rest with
      | nil => simp at hk
      | cons q rest' =>
        have hk' : k' < (q :: rest').length := by simpa using hk
        have base := ih k' hk'
        rw [List.take_succ_cons, List.drop_succ_cons]
        rw [lineLength_cons_of_ne_nil p (w := (q :: rest').take (k' + 1)) (by simp),
          lineLength_cons_cons]
        have hhead : ((q :: rest').take (k' + 1)).head (by simp) = q := by
          simp [List.take_succ_cons]
        rw [hhead]
        linarith

/-! ## Interpolation lemmas -/

/-- Interpolating within the first segment. -/
theorem interpolate_first (p q : Pt) (rest : List Pt) {t : ℝ}
    (h0 : 0 ≤ t) (h1 : t ≤ 1) :
    interpolate (p :: q :: rest) (t * ptDist p q) = lerp p q t := by
  have hd : 0 ≤ ptDist p q := ptDist_nonneg p q
  have hle : t * ptDist p q ≤ ptDist p q := by nlinarith
  rw [interpolate, if_pos hle]
  rcases eq_or_lt_of_le hd with hz | hz
  · have hpq : p = q := eq_of_ptDist_eq_zero hz.symm
    subst hpq
    rw [lerp_self, lerp_self]
  · refine lerp_eq_of_eq _ _ ?_
    field_simp

/-- Walking past the first segment. -/
theorem interpolate_shift (p q : Pt) (rest : List Pt) {s : ℝ} (hs : 0 ≤ s) :
    interpolate (p :: q :: rest) (ptDist p q + s) = interpolate (q :: rest) s := by
  rcases eq_or_lt_of_le hs with hz | hz
  · subst hz
    have hle : ptDist p q + 0 ≤ ptDist p q := by linarith
    rw [interpolate, if_pos hle]
    have hq : lerp p q ((ptDist p q + 0) / ptDist p q) = q := by
      rcases eq_or_lt_of_le (ptDist_nonneg p q) with hz' | hz'
      · have hpq : p = q := eq_of_ptDist_eq_zero hz'.symm
        subst hpq
        exact lerp_self _ _
      · rw [show (ptDist p q + 0) / ptDist p q = 1 by field_simp]
        exact lerp_one p q
    rw [hq]
    cases rest with
    | nil => rfl
    | cons r rest' =>
      rw [interpolate, if_pos (ptDist_nonneg q r)]
      rcases eq_or_lt_of_le (ptDist_nonneg q r) with hz' | hz'
      · have hqr : q = r := eq_of_ptDist_eq_zero hz'.symm
        subst hqr
        rw [lerp_self]
      · rw [show (0:ℝ) / ptDist q r = 0 by field_simp, lerp_zero]
  · have hgt : ¬ ptDist p q + s ≤ ptDist p q := by linarith
    rw [interpolate, if_neg hgt]
    congr 1
    ring

/-- Interpolating at a cumulative arc-length position lands on the
corresponding segment. -/
theorem interpolate_cumlen :
    ∀ (l : List Pt) (k : ℕ) (hk : k + 1 < l.length) {t : ℝ}, 0 ≤ t → t ≤ 1 →
      interpolate l (lineLength (l.take (k + 1)) + t * ptDist l[k] l[k + 1]) =
        lerp l[k] l[k + 1] t := by
  intro l
  induction l with
  | nil => intro k hk; simp at hk
  | cons p rest ih =>
    intro k hk t ht0 ht1
    cases rest with
    | nil => simp at hk
    | cons q rest' =>
      cases k with
      | zero =>
        have h1 := interpolate_first p q rest' ht0 ht1
        simp only [List.take_succ_cons, List.take_zero, lineLength_single,
          List.getElem_cons_zero, List.getElem_cons_succ, zero_add]
        exact h1
      | succ k' =>
        have hk' : k' + 1 < (q :: rest').length := by simpa using hk
        have harg : lineLength ((p :: q :: rest').take (k' + 1 + 1)) =
            ptDist p q + lineLength ((q :: rest').take (k' + 1)) := rfl
        have e1 : (p :: q :: rest')[k' + 1] = (q :: rest')[k'] := rfl
        have e2 : (p :: q :: rest')[k' + 1 + 1] = (q :: rest')[k' + 1] := rfl
        rw [harg, e1, e2]
        have hrec := ih k' hk' ht0 ht1
        have hnn : 0 ≤ lineLength ((q :: rest').take (k' + 1)) +
            t * ptDist (q :: rest')[k'] (q :: rest')[k' + 1] :=
          add_nonneg (lineLength_nonneg _)
            (mul_nonneg ht0 (ptDist_nonneg _ _))
        rw [add_assoc, interpolate_shift p q rest' hnn]
        exact hrec

/-- Interpolating at the full length returns the last vertex. -/
theorem interpolate_total :
    ∀ (p q : Pt) (rest : List Pt),
      interpolate (p :: q :: rest) (lineLength (p :: q :: rest)) =
        (p :: q :: rest).getLast (by simp) := by
  intro p q rest
  induction rest generalizing p q with
  | nil =>
    rw [lineLength_cons_cons, lineLength_single, interpolate_shift p q [] le_rfl]
    rfl
  | cons r rest' ih =>
    rw [lineLength_cons_cons,
      interpolate_shift p q (r :: rest') (lineLength_nonneg _), ih q r]
    simp [List.getLast_cons]

/-- Interpolating at a vertex's cumulative arc-length position returns
that vertex. -/
theorem interpolate_vertex (l : List Pt) (k : ℕ) (hk : k < l.length)
    (h2 : 2 ≤ l.length) :
    interpolate l (lineLength (l.take (k + 1))) = l[k] := by
  rcases lt_or_eq_of_le (Nat.succ_le_of_lt hk) with hlt | heq
  · simpa [lerp_zero] using interpolate_cumlen l k hlt le_rfl zero_le_one (t := 0)
  · match l, h2 with
    | p :: q :: rest, _ =>
      have hk' : k = (p :: q :: rest).length - 1 := by omega
      have htake : (p :: q :: rest).take (k + 1) = p :: q :: rest := by
        apply List.take_of_length_le
        omega
      rw [htake, interpolate_total p q rest]
      rw [List.getLast_eq_getElem]
      congr 1
      omega

/-! ## Path-set lemmas -/

theorem pathSet_nil : pathSet [] = ∅ := rfl

theorem pathSet_single (p : Pt) : pathSet [p] = ∅ := rfl

theorem pathSet_cons_cons (p q : Pt) (rest : List Pt) :
    pathSet (p :: q :: rest) = seg p q ∪ pathSet (q :: rest) := rfl

theorem pathSet_cons_of_ne_nil (p : Pt) {w : List Pt} (h : w ≠ []) :
    pathSet (p :: w) = seg p (w.head h) ∪ pathSet w := by
  cases w with
  | nil => exact absurd rfl h
  | cons q rest => rfl

theorem head_mem_pathSet (p q : Pt) (rest : List Pt) :
    p ∈ pathSet (p :: q :: rest) := by
  rw [pathSet_cons_cons]
  exact Or.inl (left_mem_seg p q)

theorem getLast_mem_pathSet :
    ∀ (p q : Pt) (rest : List Pt),
      (p :: q :: rest).getLast (by simp) ∈ pathSet (p :: q :: rest) := by
  intro p q rest
  induction rest generalizing p q with
  | nil =>
    rw [pathSet_cons_cons]
    exact Or.inl (right_mem_seg p q)
  | cons r rest' ih =>
    rw [pathSet_cons_cons]
    right
    simpa [List.getLast_cons] using ih q r

/-- Decomposing the path set of a concatenation of two nonempty
polylines: the two path sets plus the bridging segment. -/
theorem pathSet_append :
    ∀ (xs : List Pt) (hxs : xs ≠ []) (ys : List Pt) (hys : ys ≠ []),
      pathSet (xs ++ ys) =
        (pathSet xs ∪ seg (xs.getLast hxs) (ys.head hys)) ∪ pathSet ys := by
  intro xs
  induction xs with
  | nil => intro h; exact absurd rfl h
  | cons x xs' ih =>
    intro _ ys hys
    cases xs' with
    | nil =>
      rw [List.cons_append, List.nil_append,
        pathSet_cons_of_ne_nil x hys, pathSet_single]
      simp [Set.union_comm, Set.union_assoc]
    | cons x' rest =>
      have hne : x' :: rest ≠ [] := by simp
      have happ : (x' :: rest) ++ ys ≠ [] := by simp
      rw [List.cons_append, pathSet_cons_of_ne_nil x happ,
        ih hne ys hys, pathSet_cons_cons]
      have hhead : ((x' :: rest) ++ ys).head happ = x' := rfl
      have hlast : (x :: x' :: rest).getLast (by simp) = (x' :: rest).getLast hne :=
        List.getLast_cons hne
      rw [hhead, hlast]
      simp only [Set.union_assoc]

/-! ## Projection lemmas -/

theorem nearParam_nonneg (c p q : Pt) : 0 ≤ nearParam c p q :=
  le_min zero_le_one (le_max_left 0 _)

theorem nearParam_le_one (c p q : Pt) : nearParam c p q ≤ 1 :=
  min_le_left 1 _

theorem projGo_fst_nonneg (c : Pt) : ∀ (l : List Pt), 0 ≤ (projGo c l).1 := by
  intro l
  induction l with
  | nil => exact dist2_nonneg _ _
  | cons p rest ih =>
    cases rest with
    | nil => exact dist2_nonneg _ _
    | cons q rest' =>
      rw [projGo]
      split
      · exact ih
      · exact dist2_nonneg _ _

theorem projGo_snd_nonneg (c : Pt) : ∀ (l : List Pt), 0 ≤ (projGo c l).2 := by
  intro l
  induction l with
  | nil => exact le_refl 0
  | cons p rest ih =>
    cases rest with
    | nil => exact le_refl 0
    | cons q rest' =>
      rw [projGo]
      split
      · exact add_nonneg (ptDist_nonneg p q) ih
      · exact mul_nonneg (nearParam_nonneg c p q) (ptDist_nonneg p q)

/-- Interpolating at the arc position returned by the projection scan
recovers a point whose squared distance to the query is exactly the
scan's minimum. -/
theorem interpolate_projGo (c : Pt) : ∀ (l : List Pt),
    dist2 c (interpolate l (projGo c l).2) = (projGo c l).1 := by
  intro l
  induction l with
  | nil => rfl
  | cons p rest ih =>
    cases rest with
    | nil => rfl
    | cons q rest' =>
      rw [projGo]
      split
      · rw [interpolate_shift p q rest' (projGo_snd_nonneg c (q :: rest'))]
        exact ih
      · rw [interpolate_first p q rest' (nearParam_nonneg c p q) (nearParam_le_one c p q)]

/-- The point returned by snapping lies on the polyline. -/
theorem interpolate_projGo_mem (c : Pt) : ∀ (l : List Pt) (p q : Pt) (rest : List Pt),
    l = p :: q :: rest → interpolate l (projGo c l).2 ∈ pathSet l := by
  intro l
  induction l with
  | nil => intro p q rest h; simp at h
  | cons x xs ih =>
    intro p q rest h
    obtain ⟨rfl, rfl⟩ : x = p ∧ xs = q :: rest := by
      constructor <;> injection h <;> assumption
    rw [projGo]
    split
    · rw [interpolate_shift x q rest (projGo_snd_nonneg c (q :: rest))]
      cases rest with
      | nil =>
        have hq : interpolate [q] (projGo c [q]).2 = q := rfl
        rw [hq, pathSet_cons_cons]
        exact Or.inl (right_mem_seg x q)
      | cons r rest' =>
        rw [pathSet_cons_cons]
        exact Or.inr (ih q r rest' rfl)
    · rw [interpolate_first x q rest (nearParam_nonneg c x q) (nearParam_le_one c x q),
        pathSet_cons_cons]
      exact Or.inl (lerp_mem_seg x q (nearParam_nonneg c x q) (nearParam_le_one c x q))

/-- The nearest point of a segment to a point already on that segment
is the point itself (at distance zero). -/
theorem nearParam_self_on_seg (p q : Pt) {t : ℝ} (h0 : 0 ≤ t) (h1 : t ≤ 1) :
    dist2 (lerp p q t) (lerp p q (nearParam (lerp p q t) p q)) = 0 := by
  rcases eq_or_lt_of_le (dist2_nonneg p q) with hz | hz
  · have hq : q = p := dist2_eq_zero hz.symm
    subst hq
    rw [lerp_self, lerp_self, dist2_self]
  · have hdot : dot (lerp p q t - p) (q - p) = t * dist2 p q := by
      simp only [dot, lerp, dist2, Prod.mk_sub_mk, Prod.fst_sub, Prod.snd_sub]
      ring
    have hparam : nearParam (lerp p q t) p q = t := by
      rw [nearParam, hdot, mul_div_assoc, div_self (ne_of_gt hz), mul_one,
        max_eq_right h0, min_eq_right h1]
    rw [hparam, dist2_self]

/-- The projection scan attains squared distance at most that of any
candidate on any segment; in particular it is zero for a query already
on the polyline. -/
theorem projGo_fst_le_zero_of_mem (x : Pt) : ∀ (l : List Pt),
    x ∈ pathSet l → (projGo x l).1 ≤ 0 := by
  intro l
  induction l with
  | nil => intro h; simp [pathSet_nil] at h
  | cons p rest ih =>
    intro hx
    cases rest with
    | nil => simp [pathSet_single] at hx
    | cons q rest' =>
      rw [pathSet_cons_cons] at hx
      rw [projGo]
      rcases hx with hseg | htail
      · obtain ⟨t, ht0, ht1, rfl⟩ := hseg
        have hcand := nearParam_self_on_seg p q ht0 ht1
        split
        · exact le_of_lt (lt_of_lt_of_le (by assumption) (le_of_eq hcand))
        · exact le_of_eq hcand
      · have hrec := ih htail
        split
        · exact hrec
        · have hle : dist2 x (lerp p q (nearParam x p q)) ≤ (projGo x (q :: rest')).1 :=
            le_of_not_lt (by assumption)
          exact le_trans hle hrec

/-- The snapped point is a fixed point of snapping: snapping is
idempotent on any geometry. -/
theorem snap_coord_fixed (x : Pt) (g : List Pt) (hx : x ∈ pathSet g) :
    snap_coord x g = x := by
  have hle := projGo_fst_le_zero_of_mem x g hx
  have hge := projGo_fst_nonneg x g
  have hzero : (projGo x g).1 = 0 := le_antisymm hle hge
  have hdist := interpolate_projGo x g
  rw [hzero] at hdist
  exact dist2_eq_zero hdist

/-! ## List endpoint helpers -/

theorem take_succ_getElem {l : List Pt} {k : ℕ} (hk : k < l.length) :
    l.take (k + 1) = l.take k ++ [l[k]] := by
  rw [List.take_succ]
  simp [List.getElem?_eq_getElem hk]

theorem drop_cons_self {l : List Pt} {k : ℕ} (hk : k < l.length) :
    l.drop k = l[k] :: l.drop (k + 1) :=
  List.drop_eq_getElem_cons hk

theorem head?_take {l : List Pt} {m : ℕ} (h : 0 < m) : (l.take m).head? = l.head? := by
  cases l <;> cases m <;> simp_all

theorem getLast?_drop {l : List Pt} {k : ℕ} (h : k < l.length) :
    (l.drop k).getLast? = l.getLast? := by
  conv_rhs => rw [← List.take_append_drop k l]
  rw [List.getLast?_append_of_ne_nil]
  rw [← List.length_pos_iff_ne_nil]
  simpa using h

theorem getLast?_take {l : List Pt} {k : ℕ} (hk : k < l.length) :
    (l.take (k + 1)).getLast? = some l[k] := by
  rw [take_succ_getElem hk, List.getLast?_concat]

theorem head?_drop {l : List Pt} {k : ℕ} (hk : k < l.length) :
    (l.drop k).head? = some l[k] := by
  rw [drop_cons_self hk, List.head?_cons]

theorem getLast?_cons_of_ne_nil (a : Pt) {w : List Pt} (h : w ≠ []) :
    (a :: w).getLast? = w.getLast? := by
  cases w with
  | nil => exact absurd rfl h
  | cons x xs => simp [List.getLast?_cons_cons]

/-- `pathSet_append` with the bridge endpoints given through `getLast?`
and `head?`. -/
theorem pathSet_append_ends {xs ys : List Pt} {a b : Pt} (hxs : xs ≠ []) (hys : ys ≠ [])
    (ha : xs.getLast? = some a) (hb : ys.head? = some b) :
    pathSet (xs ++ ys) = (pathSet xs ∪ seg a b) ∪ pathSet ys := by
  have hga : xs.getLast hxs = a := by
    rw [List.getLast?_eq_getLast xs hxs] at ha
    exact Option.some.inj ha
  have hhb : ys.head hys = b := by
    rw [List.head?_eq_head hys] at hb
    exact Option.some.inj hb
  rw [pathSet_append xs hxs ys hys, hga, hhb]

/-! ## Correctness of `cut` on proper polylines -/

/-- The loop of `cut`, run from position `k` on a proper polyline with
the target distance strictly inside the remaining vertices, finds a
split into two pieces that share the interpolated split point, preserve
the endpoints, have lengths summing to the whole, and together trace
the original path set. -/
theorem cutLoop_correct {l : List Pt} {d : ℝ} (hp : Proper l)
    (hd0 : 0 < d) (hdL : d < lineLength l) :
    ∀ (suffix : List Pt) (k : ℕ), l.drop k = suffix → k < l.length →
      (∀ j, j < k → lineLength (l.take (j + 1)) < d) →
      ∃ before after, cutLoop l d suffix k = some (before, after) ∧
        before ≠ [] ∧ after ≠ [] ∧
        before.head? = l.head? ∧ after.getLast? = l.getLast? ∧
        before.getLast? = some (interpolate l d) ∧
        after.head? = some (interpolate l d) ∧
        lineLength before + lineLength after = lineLength l ∧
        pathSet (before ++ after) = pathSet l := by
  have h2n : 2 ≤ l.length := two_le_length_of_lineLength_pos (lt_trans hd0 hdL)
  intro suffix
  induction suffix with
  | nil =>
    intro k hdrop hk hprev
    rw [List.drop_eq_nil_iff] at hdrop
    omega
  | cons c cs ih =>
    intro k hdrop hk hprev
    have hdropk := drop_cons_self hk
    rw [hdrop] at hdropk
    have hc : c = l[k] := by injection hdropk
    have hcs : l.drop (k + 1) = cs := by injection hdropk with h1 h2; exact h2.symm
    have hproj : project l c = lineLength (l.take (k + 1)) := by
      rw [hc]; exact hp k hk
    rcases lt_trichotomy (lineLength (l.take (k + 1))) d with hlt | heq | hgt
    · -- the vertex is before the target: the loop continues
      have hne1 : ¬ project l c = d := by rw [hproj]; exact ne_of_lt hlt
      have hne2 : ¬ project l c > d := by rw [hproj]; exact not_lt.mpr (le_of_lt hlt)
      rw [cutLoop, if_neg hne1, if_neg hne2]
      have hk1 : k + 1 < l.length := by
        by_contra hge
        have htake : l.take (k + 1) = l := List.take_of_length_le (by omega)
        rw [htake] at hlt
        exact absurd hlt (not_lt.mpr (le_of_lt hdL))
      exact ih (k + 1) hcs hk1 (by
        intro j hj
        rcases Nat.lt_succ_iff_lt_or_eq.mp hj with hj' | hj'
        · exact hprev j hj'
        · rw [hj']; exact hlt)
    · -- exact vertex hit: split at the vertex
      have hke : project l c = d := by rw [hproj]; exact heq
      rw [cutLoop, if_pos hke]
      have hkpos : 1 ≤ k := by
        rcases Nat.eq_zero_or_pos k with rfl | h
        · exfalso
          have : l.take 1 = [l[0]] := by
            rw [show (1 : ℕ) = 0 + 1 by rfl, take_succ_getElem (by omega)]
            simp
          rw [this, lineLength_single] at heq
          exact absurd heq.symm (ne_of_gt hd0)
        · exact h
      have hvert : interpolate l d = l[k] := by
        rw [← heq]; exact interpolate_vertex l k hk h2n
      refine ⟨l.take (k + 1), l.drop k, rfl, ?_, ?_, ?_, ?_, ?_, ?_, ?_, ?_⟩
      · rw [← List.length_pos_iff_ne_nil, List.length_take]
        omega
      · rw [← List.length_pos_iff_ne_nil]
        simpa using hk
      · exact head?_take (by omega)
      · exact getLast?_drop hk
      · rw [getLast?_take hk, hvert]
      · rw [head?_drop hk, hvert]
      · exact lineLength_take_drop l k hk
      · -- path set: duplicated vertex contributes only a degenerate segment
        have htk : l.take (k + 1) ≠ [] := by
          rw [← List.length_pos_iff_ne_nil, List.length_take]
          omega
        have hdk : l.drop k ≠ [] := by rw [← List.length_pos_iff_ne_nil]; simpa using hk
        rw [pathSet_append_ends htk hdk (getLast?_take hk) (head?_drop hk), seg_self]
        rcases Nat.lt_or_ge (k + 1) l.length with hk1 | hk1
        · -- an interior vertex
          have hdk1 : l.drop (k + 1) ≠ [] := by
            rw [← List.length_pos_iff_ne_nil]; simpa using hk1
          have hrhs : pathSet l =
              (pathSet (l.take (k + 1)) ∪ seg l[k] l[k + 1]) ∪ pathSet (l.drop (k + 1)) := by
            conv_lhs => rw [← List.take_append_drop (k + 1) l]
            exact pathSet_append_ends htk hdk1 (getLast?_take hk) (head?_drop hk1)
          have hhd : (l.drop (k + 1)).head hdk1 = l[k + 1] := by
            have h1 := List.head?_eq_head hdk1
            rw [head?_drop hk1] at h1
            exact (Option.some.inj h1).symm
          have hdrop1 : pathSet (l.drop k) = seg l[k] l[k + 1] ∪ pathSet (l.drop (k + 1)) := by
            rw [drop_cons_self hk, pathSet_cons_of_ne_nil l[k] hdk1, hhd]
          rw [hrhs, hdrop1,
            Set.union_assoc (pathSet (l.take (k + 1))) {l[k]}
              (seg l[k] l[k + 1] ∪ pathSet (l.drop (k + 1))),
            ← Set.union_assoc ({l[k]} : Set Pt) (seg l[k] l[k + 1]) (pathSet (l.drop (k + 1))),
            Set.union_eq_self_of_subset_left
              (Set.singleton_subset_iff.mpr (left_mem_seg l[k] l[k + 1])),
            ← Set.union_assoc (pathSet (l.take (k + 1))) (seg l[k] l[k + 1])
              (pathSet (l.drop (k + 1)))]
        · -- the last vertex: the after piece is the single point
          have hklast : k = l.length - 1 := by omega
          have htake : l.take (k + 1) = l := List.take_of_length_le (by omega)
          have hdropk1 : l.drop (k + 1) = [] := by
            rw [List.drop_eq_nil_iff]; omega
          have hafter : l.drop k = [l[k]] := by
            rw [drop_cons_self hk, hdropk1]
          rw [hafter, pathSet_single, htake, Set.union_empty]
          have hmem : l[k] ∈ pathSet l := by
            match l, h2n, hk, hk1 with
            | p :: q :: rest, _, hk, hk1 =>
              have hgl : (p :: q :: rest).getLast (by simp) = (p :: q :: rest)[k] := by
                rw [List.getLast_eq_getElem]
                congr 1
                simp only [List.length_cons] at hk hk1 ⊢
                omega
              rw [← hgl]
              exact getLast_mem_pathSet p q rest
          rw [Set.union_eq_self_of_subset_right (Set.singleton_subset_iff.mpr hmem)]
    · -- the vertex is past the target: split inside the previous segment
      have hne1 : ¬ project l c = d := by rw [hproj]; exact ne_of_gt hgt
      have hgt1 : project l c > d := by rw [hproj]; exact hgt
      rw [cutLoop, if_neg hne1, if_pos hgt1]
      cases k with
      | zero =>
        exfalso
        have : l.take 1 = [l[0]] := by
          rw [show (1 : ℕ) = 0 + 1 by rfl, take_succ_getElem (by omega)]
          simp
        rw [this, lineLength_single] at hgt
        exact absurd hgt (not_lt.mpr (le_of_lt hd0))
      | succ j =>
        have hj1 : j < l.length := by omega
        have hjk : j + 1 < l.length := hk
        have hc0 : lineLength (l.take (j + 1)) < d := hprev j (by omega)
        have hlen : lineLength (l.take (j + 1 + 1)) =
            lineLength (l.take (j + 1)) + ptDist l[j] l[j + 1] := by
          rw [take_succ_getElem hjk]
          rw [lineLength_append_single
            (by rw [← List.length_pos_iff_ne_nil, List.length_take]; omega) l[j + 1]]
          congr 2
          have h1 := getLast?_take hj1
          have h2 := List.getLast?_eq_getLast (l.take (j + 1))
            (by rw [← List.length_pos_iff_ne_nil, List.length_take]; omega)
          rw [h2] at h1
          exact Option.some.inj h1
        have hlenpos : 0 < ptDist l[j] l[j + 1] := by
          rw [hlen] at hgt
          linarith
        set p := l[j] with hpdef
        set q := l[j + 1] with hqdef
        set t : ℝ := (d - lineLength (l.take (j + 1))) / ptDist p q with htdef
        have ht0 : 0 ≤ t := le_of_lt (div_pos (by linarith) hlenpos)
        have ht1 : t ≤ 1 := by
          rw [htdef, div_le_one hlenpos]
          rw [hlen] at hgt
          linarith
        have hsp : interpolate l d = lerp p q t := by
          have harg : lineLength (l.take (j + 1)) + t * ptDist p q = d := by
            rw [htdef, div_mul_cancel₀ _ (ne_of_gt hlenpos)]
            ring
          rw [← harg]
          exact interpolate_cumlen l j hjk ht0 ht1
        have htkne : l.take (j + 1) ≠ [] := by
          rw [← List.length_pos_iff_ne_nil, List.length_take]
          omega
        have hdkne : l.drop (j + 1) ≠ [] := by
          rw [← List.length_pos_iff_ne_nil]; simpa using hjk
        have hlastp : (l.take (j + 1)).getLast? = some p := getLast?_take hj1
        have hheadq : (l.drop (j + 1)).head? = some q := head?_drop hjk
        refine ⟨l.take (j + 1) ++ [interpolate l d], interpolate l d :: l.drop (j + 1),
          rfl, ?_, ?_, ?_, ?_, ?_, ?_, ?_, ?_⟩
        · simp
        · simp
        · rw [List.head?_append_of_ne_nil _ htkne]
          exact head?_take (by omega)
        · rw [getLast?_cons_of_ne_nil _ hdkne]
          exact getLast?_drop hjk
        · exact List.getLast?_concat _
        · exact List.head?_cons
        · -- the two lengths sum to the original
          have hbl : lineLength (l.take (j + 1) ++ [interpolate l d]) =
              lineLength (l.take (j + 1)) + t * ptDist p q := by
            rw [lineLength_append_single htkne]
            congr 1
            have hgl : (l.take (j + 1)).getLast htkne = p := by
              rw [List.getLast?_eq_getLast _ htkne] at hlastp
              exact Option.some.inj hlastp
            rw [hgl, hsp]
            exact ptDist_lerp_left p q ht0
          have hal : lineLength (interpolate l d :: l.drop (j + 1)) =
              (1 - t) * ptDist p q + lineLength (l.drop (j + 1)) := by
            rw [lineLength_cons_of_ne_nil _ hdkne]
            congr 1
            have hhd : (l.drop (j + 1)).head hdkne = q := by
              rw [List.head?_eq_head hdkne] at hheadq
              exact Option.some.inj hheadq
            rw [hhd, hsp]
            exact ptDist_lerp_right p q ht1
          rw [hbl, hal, ← lineLength_take_drop l (j + 1) hjk, hlen]
          ring
        · -- path set: the split point subdivides one segment
          have hsplit : seg p (interpolate l d) ∪ seg (interpolate l d) q = seg p q := by
            rw [hsp]
            exact seg_split p q ht0 ht1
          have hlhs : pathSet ((l.take (j + 1) ++ [interpolate l d]) ++
              (interpolate l d :: l.drop (j + 1))) =
              (((pathSet (l.take (j + 1)) ∪ seg p (interpolate l d)) ∪ pathSet [interpolate l d])
                ∪ seg (interpolate l d) (interpolate l d)) ∪
                (seg (interpolate l d) q ∪ pathSet (l.drop (j + 1))) := by
            rw [pathSet_append_ends (by simp) (by simp)
              (List.getLast?_concat _) List.head?_cons]
            rw [pathSet_append_ends htkne (by simp) hlastp List.head?_cons]
            rw [pathSet_cons_of_ne_nil _ hdkne]
            congr 2
            have hhd : (l.drop (j + 1)).head hdkne = q := by
              rw [List.head?_eq_head hdkne] at hheadq
              exact Option.some.inj hheadq
            rw [hhd]
          have hrhs : pathSet l =
              (pathSet (l.take (j + 1)) ∪ seg p q) ∪ pathSet (l.drop (j + 1)) := by
            conv_lhs => rw [← List.take_append_drop (j + 1) l]
            exact pathSet_append_ends htkne hdkne hlastp hheadq
          rw [hlhs, hrhs, pathSet_single, seg_self, Set.union_empty,
            Set.union_assoc (pathSet (l.take (j + 1))) (seg p (interpolate l d))
              {interpolate l d},
            Set.union_assoc (pathSet (l.take (j + 1)))
              (seg p (interpolate l d) ∪ {interpolate l d})
              (seg (interpolate l d) q ∪ pathSet (l.drop (j + 1))),
            Set.union_assoc (seg p (interpolate l d)) {interpolate l d}
              (seg (interpolate l d) q ∪ pathSet (l.drop (j + 1))),
            ← Set.union_assoc ({interpolate l d} : Set Pt) (seg (interpolate l d) q)
              (pathSet (l.drop (j + 1))),
            Set.union_eq_self_of_subset_left
              (Set.singleton_subset_iff.mpr (left_mem_seg (interpolate l d) q)),
            ← Set.union_assoc (seg p (interpolate l d)) (seg (interpolate l d) q)
              (pathSet (l.drop (j + 1))),
            hsplit,
            ← Set.union_assoc (pathSet (l.take (j + 1))) (seg p q) (pathSet (l.drop (j + 1)))]

/-- Correctness of `cut` for a target distance strictly inside a proper
polyline: the result is a pair of nonempty pieces that share the
interpolated split point, keep the original endpoints, have lengths
summing to the original length, and together trace the original path
set. -/
theorem cut_correct {l : List Pt} {d : ℝ} (hp : Proper l)
    (hd0 : 0 < d) (hdL : d < lineLength l) :
    ∃ before after,
      cut l d = some [before, after] ∧
      before ≠ [] ∧ after ≠ [] ∧
      before.head? = l.head? ∧ after.getLast? = l.getLast? ∧
      before.getLast? = some (interpolate l d) ∧
      after.head? = some (interpolate l d) ∧
      lineLength before + lineLength after = lineLength l ∧
      pathSet (before ++ after) = pathSet l := by
  obtain ⟨before, after, hloop, hrest⟩ :=
    cutLoop_correct hp hd0 hdL l 0 (List.drop_zero l) (by
      have := two_le_length_of_lineLength_pos (lt_trans hd0 hdL)
      omega) (by omega)
  refine ⟨before, after, ?_, hrest⟩
  rw [cut, if_neg (by push_neg; exact ⟨hd0, hdL⟩), hloop]
  rfl

/-! ## Reconciliation lemmas -/

theorem mem_firstOccs {α : Type} [DecidableEq α] {x : α} :
    ∀ {l : List α}, x ∈ firstOccs l ↔ x ∈ l := by
  intro l
  induction l with
  | nil => simp [firstOccs]
  | cons y ys ih =>
    rw [firstOccs]
    by_cases hxy : x = y
    · subst hxy
      simp
    · simp only [List.mem_cons, List.mem_filter, decide_eq_true_iff]
      constructor
      · rintro (rfl | ⟨hmem, -⟩)
        · exact Or.inl rfl
        · exact Or.inr (ih.mp hmem)
      · rintro (rfl | hmem)
        · exact Or.inl rfl
        · exact Or.inr ⟨ih.mpr hmem, hxy⟩

theorem pairwise_firstOccs {α : Type} [DecidableEq α] :
    ∀ (l : List α), (firstOccs l).Pairwise fun a b => l.indexOf a < l.indexOf b := by
  intro l
  induction l with
  | nil => simp [firstOccs]
  | cons y ys ih =>
    rw [firstOccs]
    rw [List.pairwise_cons]
    constructor
    · intro b hb
      have hbne : b ≠ y := by
        have := (List.mem_filter.mp hb).2
        simpa using this
      rw [List.indexOf_cons_self, List.indexOf_cons_ne ys hbne.symm]
      exact Nat.succ_pos _
    · have hfil := ih.filter fun z => decide (z ≠ y)
      refine hfil.imp_of_mem ?_
      intro a b ha hb hab
      have hane : a ≠ y := by simpa using (List.mem_filter.mp ha).2
      have hbne : b ≠ y := by simpa using (List.mem_filter.mp hb).2
      rw [List.indexOf_cons_ne ys hane.symm, List.indexOf_cons_ne ys hbne.symm]
      omega

theorem foldl_pick_mem {α : Type} (f : α → ℕ) :
    ∀ (ks : List α) (k : α),
      ks.foldl (fun best x => if f best < f x then x else best) k ∈ k :: ks := by
  intro ks
  induction ks with
  | nil => intro k; simp
  | cons x ks' ih =>
    intro k
    rw [List.foldl_cons]
    rcases List.mem_cons.mp (ih (if f k < f x then x else k)) with h | h
    · rw [h]
      split
      · exact List.mem_cons_of_mem _ (List.mem_cons_self x ks')
      · exact List.mem_cons_self k _
    · exact List.mem_cons_of_mem _ (List.mem_cons_of_mem _ h)

theorem foldl_pick_le {α : Type} (f : α → ℕ) :
    ∀ (ks : List α) (k : α) (x : α), x ∈ k :: ks →
      f x ≤ f (ks.foldl (fun best y => if f best < f y then y else best) k) := by
  intro ks
  induction ks with
  | nil =>
    intro k x hx
    rw [List.mem_singleton] at hx
    subst hx
    simp
  | cons y ks' ih =>
    intro k x hx
    rw [List.foldl_cons]
    have hk : f k ≤ f (if f k < f y then y else k) := by
      split
      · exact le_of_lt (by assumption)
      · exact le_refl _
    have hy : f y ≤ f (if f k < f y then y else k) := by
      split
      · exact le_refl _
      · exact le_of_not_lt (by assumption)
    have hrec := ih (if f k < f y then y else k)
    rcases List.mem_cons.mp hx with rfl | hx'
    · exact le_trans hk (hrec _ (List.mem_cons_self _ _))
    · rcases List.mem_cons.mp hx' with rfl | hx''
      · exact le_trans hy (hrec _ (List.mem_cons_self _ _))
      · exact hrec x (List.mem_cons_of_mem _ hx'')

theorem foldl_pick_first {α : Type} (f : α → ℕ) :
    ∀ (ks : List α) (k : α),
      (k :: ks).find?
          (fun x => decide (f (ks.foldl (fun best y => if f best < f y then y else best) k) ≤ f x)) =
        some (ks.foldl (fun best y => if f best < f y then y else best) k) := by
  intro ks
  induction ks with
  | nil =>
    intro k
    simp [List.find?]
  | cons y ks' ih =>
    intro k
    rw [List.foldl_cons]
    by_cases hky : f k < f y
    · rw [if_pos hky]
      have hyres : f y ≤ f (ks'.foldl (fun best z => if f best < f z then z else best) y) :=
        foldl_pick_le f ks' y y (List.mem_cons_self _ _)
      have hpk : ¬ f (ks'.foldl (fun best z => if f best < f z then z else best) y) ≤ f k := by
        omega
      rw [List.find?_cons_of_neg _ (by simpa using hpk)]
      exact ih y
    · rw [if_neg hky]
      by_cases hpk : f (ks'.foldl (fun best z => if f best < f z then z else best) k) ≤ f k
      · have hik := ih k
        rw [List.find?_cons_of_pos _ (by simpa using hpk)] at hik
        rw [List.find?_cons_of_pos _ (by simpa using hpk)]
        exact hik
      · have hpy : ¬ f (ks'.foldl (fun best z => if f best < f z then z else best) k) ≤ f y := by
          omega
        rw [List.find?_cons_of_neg _ (by simpa using hpk),
          List.find?_cons_of_neg _ (by simpa using hpy)]
        have hik := ih k
        rw [List.find?_cons_of_neg _ (by simpa using hpk)] at hik
        exact hik

theorem find?_first_of_pairwise {α : Type} {R : α → α → Prop} {p : α → Bool} :
    ∀ {ks : List α}, ks.Pairwise R → ∀ {a : α}, ks.find? p = some a →
      ∀ b ∈ ks, p b = true → a = b ∨ R a b := by
  intro ks
  induction ks with
  | nil => intro _ a h; simp at h
  | cons x ks' ih =>
    intro hpw a hfind b hb hpb
    rcases List.pairwise_cons.mp hpw with ⟨hx, hpw'⟩
    by_cases hpx : p x = true
    · rw [List.find?_cons_of_pos _ hpx] at hfind
      have hax : a = x := (Option.some.inj hfind).symm
      subst hax
      rcases List.mem_cons.mp hb with rfl | hb'
      · exact Or.inl rfl
      · exact Or.inr (hx b hb')
    · rw [List.find?_cons_of_neg _ (by simpa using hpx)] at hfind
      rcases List.mem_cons.mp hb with rfl | hb'
      · exact absurd hpb hpx
      · exact ih hpw' hfind b hb' hpb

/-- `most_common` attains a maximal occurrence count. -/
theorem count_le_count_most_common {α : Type} [DecidableEq α] [Inhabited α]
    (l : List α) (v : α) : l.count v ≤ l.count (most_common l) := by
  by_cases hv : v ∈ l
  · have hvf : v ∈ firstOccs l := mem_firstOccs.mpr hv
    cases hocc : firstOccs l with
    | nil => rw [hocc] at hvf; simp at hvf
    | cons k ks =>
      rw [hocc] at hvf
      simp only [most_common, hocc]
      exact foldl_pick_le (fun a => l.count a) ks k v hvf
  · rw [List.count_eq_zero_of_not_mem hv]
    exact Nat.zero_le _

/-- Among the values tied at the maximal count, `most_common` returns
the one occurring earliest in the input. -/
theorem most_common_first_on_tie {α : Type} [DecidableEq α] [Inhabited α]
    (l : List α) (v : α) (hv : v ∈ l)
    (htie : l.count v = l.count (most_common l)) :
    l.indexOf (most_common l) ≤ l.indexOf v := by
  have hvf : v ∈ firstOccs l := mem_firstOccs.mpr hv
  cases hocc : firstOccs l with
  | nil => rw [hocc] at hvf; simp at hvf
  | cons k ks =>
    rw [hocc] at hvf
    have hmc : most_common l = ks.foldl (fun best x => if l.count best < l.count x then x else best) k := by
      simp only [most_common, hocc]
    have hfind := foldl_pick_first (fun a => l.count a) ks k
    have hpw := pairwise_firstOccs l
    rw [hocc] at hpw
    have hpv : (fun x => decide
        (l.count (ks.foldl (fun best y => if l.count best < l.count y then y else best) k) ≤ l.count x)) v = true := by
      rw [decide_eq_true_iff]
      rw [hmc] at htie
      exact le_of_eq htie.symm
    have hres := find?_first_of_pairwise hpw hfind v hvf hpv
    rw [hmc]
    rcases hres with heq | hlt
    · rw [heq]
    · exact le_of_lt hlt

/-! ## Segmentation-loop lemmas -/

/-- The loop appends exactly one segment per processed distance. -/
theorem segLoop_length : ∀ (ds : List ℝ) (current : List Pt) (segs : List (List Pt))
    (rem : List Pt), segLoop current ds = some (segs, rem) → segs.length = ds.length := by
  intro ds
  induction ds with
  | nil =>
    intro current segs rem h
    rw [segLoop] at h
    obtain ⟨h1, -⟩ := Prod.mk.injEq .. ▸ Option.some.inj h
    rw [← h1]
    rfl
  | cons d ds' ih =>
    intro current segs rem h
    rw [segLoop] at h
    split at h
    · rw [Option.map_eq_some'] at h
      obtain ⟨⟨segs0, rem0⟩, hr, heq⟩ := h
      obtain ⟨h1, -⟩ := Prod.mk.injEq .. ▸ heq
      rw [← h1]
      simp [ih current segs0 rem0 hr]
    · rw [Option.map_eq_some'] at h
      obtain ⟨⟨segs0, rem0⟩, hr, heq⟩ := h
      obtain ⟨h1, -⟩ := Prod.mk.injEq .. ▸ heq
      rw [← h1]
      simp only [List.length_cons, List.length_cons]
      rw [ih _ segs0 rem0 hr]
    · exact absurd h (by simp)

theorem segLoop_nil (current : List Pt) : segLoop current [] = some ([], current) := by
  rw [segLoop]

theorem segLoop_cons_one {current s : List Pt} {d : ℝ} (ds : List ℝ)
    (h : cut current (d / DEG_TO_M) = some [s]) :
    segLoop current (d :: ds) = (segLoop current ds).map fun r => (s :: r.1, r.2) := by
  rw [segLoop, h]

theorem segLoop_cons_two {current a b : List Pt} {d : ℝ} (ds : List ℝ)
    (h : cut current (d / DEG_TO_M) = some [a, b]) :
    segLoop current (d :: ds) = (segLoop b ds).map fun r => (a :: r.1, r.2) := by
  rw [segLoop, h]

/-! ## Concrete evaluation helpers -/

theorem sqrt_eval {a b : ℝ} (hb : 0 ≤ b) (h : a = b ^ 2) : Real.sqrt a = b := by
  rw [h]
  exact Real.sqrt_sq hb

theorem ptDist_eval {x1 y1 x2 y2 b : ℝ} (hb : 0 ≤ b)
    (h : (x2 - x1) ^ 2 + (y2 - y1) ^ 2 = b ^ 2) :
    ptDist (x1, y1) (x2, y2) = b := by
  rw [ptDist, dist2]
  exact sqrt_eval hb h

theorem DEG_TO_M_eq : DEG_TO_M = 110000 := by
  rw [DEG_TO_M]
  norm_num

theorem DEG_TO_M_pos : 0 < DEG_TO_M := by
  rw [DEG_TO_M_eq]
  norm_num

theorem lineLength_pair (p q : Pt) : lineLength [p, q] = ptDist p q := by
  rw [lineLength_cons_cons, lineLength_single, add_zero]

/-- Projecting the first vertex of a polyline yields position 0 with
distance 0. -/
theorem projGo_head (p q : Pt) (rest : List Pt) :
    projGo p (p :: q :: rest) = (0, 0) := by
  have hnp : nearParam p p q = 0 := by
    rw [nearParam, sub_self]
    have hdot : dot 0 (q - p) = 0 := by
      simp [dot]
    rw [hdot]
    norm_num
  rw [projGo, hnp, lerp_zero, dist2_self, zero_mul,
    if_neg (not_lt.mpr (projGo_fst_nonneg p (q :: rest)))]

theorem nearParam_last {p q : Pt} (h : dist2 p q ≠ 0) : nearParam q p q = 1 := by
  have hdot : dot (q - p) (q - p) = dist2 p q := by
    simp only [dot, dist2, Prod.fst_sub, Prod.snd_sub]
    ring
  rw [nearParam, hdot, div_self h]
  norm_num

/-- Projecting the last vertex of a two-point polyline yields its full
length with distance 0. -/
theorem projGo_pair_last (p q : Pt) : projGo q [p, q] = (0, ptDist p q) := by
  have hsingle : projGo q [q] = (dist2 q q, 0) := rfl
  rcases eq_or_lt_of_le (dist2_nonneg p q) with hz | hz
  · have hqp : q = p := dist2_eq_zero hz.symm
    subst hqp
    have hnp : nearParam q q q = 0 := by
      rw [nearParam, dist2_self, div_zero]
      norm_num
    rw [projGo, hnp, lerp_zero, dist2_self, zero_mul, hsingle, dist2_self,
      if_neg (lt_irrefl 0), ptDist_self]
  · have hnp : nearParam q p q = 1 := nearParam_last (ne_of_gt hz)
    rw [projGo, hnp, lerp_one, dist2_self, one_mul, hsingle, dist2_self,
      if_neg (lt_irrefl 0)]

/-- Any two-point polyline is proper. -/
theorem proper_pair (p q : Pt) : Proper [p, q] := by
  intro i h
  simp only [List.length_cons, List.length_nil] at h
  interval_cases i
  · show project [p, q] p = lineLength [p]
    rw [project, projGo_head, lineLength_single]
  · show project [p, q] q = lineLength [p, q]
    rw [project, projGo_pair_last, lineLength_pair]

theorem ptDist_A : ptDist ((0:ℝ), (0:ℝ)) ((1:ℝ), (0:ℝ)) = 1 :=
  ptDist_eval (by norm_num) (by norm_num)

theorem ptDist_back : ptDist ((1:ℝ), (0:ℝ)) ((0:ℝ), (0:ℝ)) = 1 :=
  ptDist_eval (by norm_num) (by norm_num)

theorem ptDist_B : ptDist ((1/1100 : ℝ), (0:ℝ)) ((1:ℝ), (0:ℝ)) = 1099/1100 :=
  ptDist_eval (by norm_num) (by norm_num)

theorem ptDist_C : ptDist ((0:ℝ), (0:ℝ)) ((2:ℝ), (0:ℝ)) = 2 :=
  ptDist_eval (by norm_num) (by norm_num)

theorem ptDist_D : ptDist ((2:ℝ), (0:ℝ)) ((3:ℝ), (0:ℝ)) = 1 :=
  ptDist_eval (by norm_num) (by norm_num)

theorem legDistances_getElem : ∀ (coords : List Pt) (i : ℕ) (h : i + 1 < coords.length),
    (legDistances coords)[i]? = some (ptDist coords[i] coords[i + 1] * DEG_TO_M) := by
  intro coords
  induction coords with
  | nil => intro i h; simp at h
  | cons p rest ih =>
    intro i h
    cases rest with
    | nil => simp at h
    | cons q rest' =>
      rw [legDistances]
      cases i with
      | zero =>
        simp only [List.getElem?_cons_zero, List.getElem_cons_zero,
          List.getElem_cons_succ]
      | succ j =>
        rw [List.getElem?_cons_succ]
        have h' : j + 1 < (q :: rest').length := by simpa using h
        exact ih j h'

theorem lineLength_lineA : lineLength lineA = 1 := by
  unfold lineA
  rw [lineLength_pair, ptDist_A]

theorem lineLength_lineB : lineLength lineB = 1099/1100 := by
  unfold lineB
  rw [lineLength_pair, ptDist_B]

theorem lineLength_lineC : lineLength lineC = 2 := by
  unfold lineC
  rw [lineLength_pair, ptDist_C]

theorem project_lineA_0 :
    project [((0:ℝ), (0:ℝ)), ((1:ℝ), (0:ℝ))] ((0:ℝ), (0:ℝ)) = 0 := by
  rw [project, projGo_head]

theorem project_lineA_1 :
    project [((0:ℝ), (0:ℝ)), ((1:ℝ), (0:ℝ))] ((1:ℝ), (0:ℝ)) = 1 := by
  rw [project, projGo_pair_last]
  exact ptDist_A

theorem interp_lineA :
    interpolate [((0:ℝ), (0:ℝ)), ((1:ℝ), (0:ℝ))] (1/1100) = ((1/1100 : ℝ), (0:ℝ)) := by
  rw [interpolate, if_pos (by rw [ptDist_A]; norm_num), ptDist_A]
  norm_num [lerp]

/-- Cutting the unit line at the converted offset of 100 splits it at
`x = 1/1100`. -/
theorem cut_lineA : cut lineA (1/1100) =
    some [[((0:ℝ), (0:ℝ)), ((1/1100 : ℝ), (0:ℝ))], lineB] := by
  unfold lineA lineB
  rw [cut, if_neg (by
    rw [show lineLength [((0:ℝ), (0:ℝ)), ((1:ℝ), (0:ℝ))] = 1 by rw [lineLength_pair, ptDist_A]]
    norm_num)]
  rw [cutLoop, if_neg (by rw [project_lineA_0]; norm_num),
    if_neg (by rw [project_lineA_0]; norm_num)]
  rw [cutLoop, if_neg (by rw [project_lineA_1]; norm_num),
    if_pos (by rw [project_lineA_1]; norm_num)]
  rw [interp_lineA]
  rfl

theorem project_lineB_0 :
    project [((1/1100 : ℝ), (0:ℝ)), ((1:ℝ), (0:ℝ))] ((1/1100 : ℝ), (0:ℝ)) = 0 := by
  rw [project, projGo_head]

theorem project_lineB_1 :
    project [((1/1100 : ℝ), (0:ℝ)), ((1:ℝ), (0:ℝ))] ((1:ℝ), (0:ℝ)) = 1099/1100 := by
  rw [project, projGo_pair_last]
  exact ptDist_B

theorem interp_lineB :
    interpolate [((1/1100 : ℝ), (0:ℝ)), ((1:ℝ), (0:ℝ))] (3/1100) =
      ((1/275 : ℝ), (0:ℝ)) := by
  rw [interpolate, if_pos (by rw [ptDist_B]; norm_num), ptDist_B]
  norm_num [lerp]

/-- Cutting the remainder at the converted offset of 300 splits it at
`x = 1/275`. -/
theorem cut_lineB : cut lineB (3/1100) =
    some [[((1/1100 : ℝ), (0:ℝ)), ((1/275 : ℝ), (0:ℝ))],
      [((1/275 : ℝ), (0:ℝ)), ((1:ℝ), (0:ℝ))]] := by
  unfold lineB
  rw [cut, if_neg (by
    rw [show lineLength [((1/1100 : ℝ), (0:ℝ)), ((1:ℝ), (0:ℝ))] = 1099/1100 by
      rw [lineLength_pair, ptDist_B]]
    norm_num)]
  rw [cutLoop, if_neg (by rw [project_lineB_0]; norm_num),
    if_neg (by rw [project_lineB_0]; norm_num)]
  rw [cutLoop, if_neg (by rw [project_lineB_1]; norm_num),
    if_pos (by rw [project_lineB_1]; norm_num)]
  rw [interp_lineB]
  rfl

theorem projGo_loop_mid :
    projGo ((1:ℝ), (0:ℝ)) [((0:ℝ), (0:ℝ)), ((1:ℝ), (0:ℝ)), ((0:ℝ), (0:ℝ))] = (0, 1) := by
  have hr : projGo ((1:ℝ), (0:ℝ)) [((1:ℝ), (0:ℝ)), ((0:ℝ), (0:ℝ))] = (0, 0) :=
    projGo_head _ _ []
  have hnp : nearParam ((1:ℝ), (0:ℝ)) ((0:ℝ), (0:ℝ)) ((1:ℝ), (0:ℝ)) = 1 :=
    nearParam_last (by norm_num [dist2])
  rw [projGo, hr, hnp, lerp_one, dist2_self, one_mul, if_neg (lt_irrefl 0), ptDist_A]

theorem project_loop_0 : project loopLine ((0:ℝ), (0:ℝ)) = 0 := by
  unfold loopLine
  rw [project, projGo_head]

theorem project_loop_1 : project loopLine ((1:ℝ), (0:ℝ)) = 1 := by
  unfold loopLine
  rw [project, projGo_loop_mid]

theorem lineLength_loopLine : lineLength loopLine = 2 := by
  unfold loopLine
  rw [lineLength_cons_cons, lineLength_pair, ptDist_A, ptDist_back]
  norm_num

/-- On the out-and-back line, `cut` falls off its loop and returns
`None` for an in-range distance: every vertex projects to an arc
position at most 1, while the target is 3/2. -/
theorem cut_loopLine_none : cut loopLine (3/2) = none := by
  have hp0' := project_loop_0
  have hp1' := project_loop_1
  unfold loopLine at hp0' hp1' ⊢
  have hlen2 : lineLength [((0:ℝ), (0:ℝ)), ((1:ℝ), (0:ℝ)), ((0:ℝ), (0:ℝ))] = 2 := by
    rw [lineLength_cons_cons, lineLength_pair, ptDist_A, ptDist_back]
    norm_num
  rw [cut, if_neg (by rw [hlen2]; norm_num)]
  rw [cutLoop, if_neg (by rw [hp0']; norm_num), if_neg (by rw [hp0']; norm_num)]
  rw [cutLoop, if_neg (by rw [hp1']; norm_num), if_neg (by rw [hp1']; norm_num)]
  rw [cutLoop, if_neg (by rw [hp0']; norm_num), if_neg (by rw [hp0']; norm_num)]
  rw [cutLoop]
  rfl

/-! ## Claim theorems -/

/-- C1: the persisted round trip does not reproduce `service_id`:
`to_dict` (gtfs_sequence.py line 219) writes `trip_headsign` into the
`'service_id'` key, so for every sequence the restored `service_id`
equals the original `trip_headsign`; on `sampleSeq` (headsign
"South Ferry", service id "WKD") the restored `service_id` differs from
the original one. -/
theorem C1_roundtrip_service_id_swap :
    (∀ s : Sequence, (Sequence.from_dict s.to_dict).service_id = s.trip_headsign) ∧
    (Sequence.from_dict sampleSeq.to_dict).service_id = "South Ferry" ∧
    sampleSeq.service_id = "WKD" ∧
    (Sequence.from_dict sampleSeq.to_dict).service_id ≠ sampleSeq.service_id := by
  refine ⟨fun s => rfl, rfl, rfl, ?_⟩
  decide

/-- C2 counterexample: `calculate_stop_distances` on coordinates with a
long first leg and a short second leg yields the per-leg list
`[0, 220000, 110000]`: entry 2 is not entry 1 plus the converted second
leg (110000 ≠ 220000 + 110000), and the list decreases (110000 <
220000), refuting both the claimed cumulative recurrence and
monotonicity. -/
theorem C2_stop_distances_cex :
    calculate_stop_distances cexCoords = [0, 220000, 110000] ∧
    ¬ ((110000 : ℝ) = 220000 + 110000) ∧ (110000 : ℝ) < 220000 := by
  refine ⟨?_, by norm_num, by norm_num⟩
  unfold cexCoords
  rw [calculate_stop_distances, legDistances, legDistances,
    show legDistances [((3:ℝ), (0:ℝ))] = [] from rfl, ptDist_C, ptDist_D, DEG_TO_M_eq]
  norm_num

/-- C2 (amended): after `calculate_stop_distances`, entry 0 is 0 and
entry `i` (for `1 ≤ i ≤ N-1`) is the converted distance of leg `i`
alone, `convert(dist(snapped[i-1], snapped[i]))`, with no cumulative
sum (and hence no monotonicity in general). -/
theorem C2_stop_distances_per_leg (coords : List Pt) :
    (calculate_stop_distances coords).head? = some 0 ∧
    ∀ (i : ℕ) (h : i + 1 < coords.length),
      (calculate_stop_distances coords)[i + 1]? =
        some (ptDist coords[i] coords[i + 1] * DEG_TO_M) := by
  constructor
  · rfl
  · intro i h
    rw [calculate_stop_distances, List.getElem?_cons_succ]
    exact legDistances_getElem coords i h

theorem C2_stop_distances_per_leg_witness :
    1 + 1 < cexCoords.length ∧
    (calculate_stop_distances cexCoords).head? = some 0 ∧
    (calculate_stop_distances cexCoords)[1 + 1]? =
      some (ptDist ((2:ℝ), (0:ℝ)) ((3:ℝ), (0:ℝ)) * DEG_TO_M) := by
  have hlen : 1 + 1 < cexCoords.length := by simp [cexCoords]
  exact ⟨hlen, (C2_stop_distances_per_leg cexCoords).1,
    (C2_stop_distances_per_leg cexCoords).2 1 hlen⟩

/-- C5: geometry matching with 0 candidates sharing the sequence's
route-direction key returns the no-match result (`False`, no error),
with exactly 1 candidate assigns that candidate and reports success,
and with 2 or more candidates raises. -/
theorem C5_geometry_matcher {G : Type} (s : Sequence) (rows : List (String × G)) :
    ((rows.filter fun r => r.1 == s.get_route_dir).length = 0 →
      s.assign_route_geometry rows = Except.ok none) ∧
    (∀ r0 : String × G, rows.filter (fun r => r.1 == s.get_route_dir) = [r0] →
      s.assign_route_geometry rows = Except.ok (some r0.2)) ∧
    (2 ≤ (rows.filter fun r => r.1 == s.get_route_dir).length →
      s.assign_route_geometry rows = Except.error "Multiple route geometries matched") := by
  refine ⟨?_, ?_, ?_⟩
  · intro h0
    simp only [Sequence.assign_route_geometry]
    rw [if_pos h0]
  · intro r0 h1
    simp only [Sequence.assign_route_geometry]
    rw [h1, if_neg (by simp), if_neg (by simp)]
    rfl
  · intro h2
    simp only [Sequence.assign_route_geometry]
    rw [if_neg (by omega), if_pos (by omega)]

theorem C5_geometry_matcher_witness :
    (([] : List (String × ℕ)).filter fun r => r.1 == sampleSeq.get_route_dir).length = 0 ∧
    sampleSeq.assign_route_geometry ([] : List (String × ℕ)) = Except.ok none ∧
    ([(("M15_0", 7) : String × ℕ)].filter fun r => r.1 == sampleSeq.get_route_dir) =
      [("M15_0", 7)] ∧
    sampleSeq.assign_route_geometry [(("M15_0", 7) : String × ℕ)] = Except.ok (some 7) ∧
    2 ≤ ([(("M15_0", 7) : String × ℕ), ("M15_0", 8)].filter fun r =>
      r.1 == sampleSeq.get_route_dir).length ∧
    sampleSeq.assign_route_geometry [(("M15_0", 7) : String × ℕ), ("M15_0", 8)] =
      Except.error "Multiple route geometries matched" :=
  ⟨by decide, (C5_geometry_matcher sampleSeq _).1 (by decide),
    by decide, (C5_geometry_matcher sampleSeq _).2.1 ("M15_0", 7) (by decide),
    by decide, (C5_geometry_matcher sampleSeq _).2.2 (by decide)⟩

/-- C6 counterexample: with `distances = [0]` (a single entry) and two
values, the lengths mismatch yet `segment_by_distances` silently skips
value attachment and returns a one-segment result carrying the last
value, instead of failing. -/
theorem C6_mismatch_cex :
    segment_by_distances lineA [(0:ℝ)] [(5:ℕ), 7] = some ([lineA], [7], [7]) ∧
    [(5:ℕ), 7].length ≠ [(0:ℝ)].length := by
  constructor
  · simp only [segment_by_distances, List.tail_cons, segLoop_nil]
    rfl
  · simp

/-- C6 (amended): when `len(values) ≠ len(distances)`, value attachment
is silently skipped rather than raising an explicit
configuration-mismatch error; the call then fails — with a generic
error (`values[-1]` on an empty `values`, or the length mismatch
between the geometry and value columns at result assembly) — exactly
when `values` is empty or `len(distances) ≥ 2`, while for a non-empty
`values` and `len(distances) ≤ 1` it silently returns a one-segment
result carrying only the last value as both start and end value. -/
theorem C6_mismatch_behavior (V : Type) (line : List Pt) (distances : List ℝ)
    (values : List V) (hmis : values.length ≠ distances.length) :
    (2 ≤ distances.length ∨ values = [] →
      segment_by_distances line distances values = none) ∧
    (distances.length ≤ 1 → ∀ v : V, values.getLast? = some v →
      segment_by_distances line distances values = some ([line], [v], [v])) := by
  constructor
  · rintro (h2 | hvnil)
    · cases hsl : segLoop line distances.tail with
      | none => simp only [segment_by_distances, hsl]
      | some pr =>
        obtain ⟨segs, rem⟩ := pr
        cases hv : values.getLast? with
        | none => simp only [segment_by_distances, hsl, hv]
        | some v =>
          have hlen := segLoop_length distances.tail line segs rem hsl
          simp only [segment_by_distances, hsl, hv, if_neg hmis]
          rw [if_neg]
          simp only [List.length_append, List.length_cons, List.length_nil]
          have htl : distances.tail.length = distances.length - 1 := by
            simp [List.length_tail]
          omega
    · subst hvnil
      cases hsl : segLoop line distances.tail with
      | none => simp only [segment_by_distances, hsl]
      | some pr =>
        obtain ⟨segs, rem⟩ := pr
        simp only [segment_by_distances, hsl]
        rfl
  · intro h1 v hv
    have htail : distances.tail = [] := by
      cases distances with
      | nil => rfl
      | cons d ds =>
        cases ds with
        | nil => rfl
        | cons d2 ds2 => simp at h1
    simp only [segment_by_distances, htail, segLoop_nil, hv, if_neg hmis]
    rfl

theorem C6_mismatch_behavior_witness :
    ([(5:ℕ)].length ≠ ([0, 220000] : List ℝ).length ∧
      2 ≤ ([0, 220000] : List ℝ).length ∧
      segment_by_distances lineA [(0:ℝ), 220000] [(5:ℕ)] = none) ∧
    (([] : List ℕ).length ≠ ([(0:ℝ)] : List ℝ).length ∧
      segment_by_distances lineA [(0:ℝ)] ([] : List ℕ) = none) ∧
    ([(3:ℕ), 4].length ≠ ([(0:ℝ)] : List ℝ).length ∧
      ([(0:ℝ)] : List ℝ).length ≤ 1 ∧
      [(3:ℕ), 4].getLast? = some 4 ∧
      segment_by_distances lineA [(0:ℝ)] [(3:ℕ), 4] = some ([lineA], [4], [4])) :=
  ⟨⟨by simp, by simp,
      (C6_mismatch_behavior ℕ lineA [0, 220000] [5] (by simp)).1 (Or.inl (by simp))⟩,
    ⟨by simp,
      (C6_mismatch_behavior ℕ lineA [(0:ℝ)] [] (by simp)).1 (Or.inr rfl)⟩,
    ⟨by simp, by simp, by simp,
      (C6_mismatch_behavior ℕ lineA [(0:ℝ)] [3, 4] (by simp)).2 (by simp) 4 (by simp)⟩⟩

/-- C7: cutting at a distance at most 0 or at least the curve length
returns the curve unchanged as a single-element result. -/
theorem C7_cut_out_of_range (line : List Pt) (d : ℝ)
    (h : d ≤ 0 ∨ lineLength line ≤ d) : cut line d = some [line] := by
  rw [cut, if_pos h]

theorem C7_cut_out_of_range_witness :
    ((0:ℝ) ≤ 0 ∨ lineLength lineA ≤ 0) ∧ cut lineA 0 = some [lineA] :=
  ⟨Or.inl le_rfl, C7_cut_out_of_range lineA 0 (Or.inl le_rfl)⟩

/-- C8 counterexample: on the column values [1, 0, 0, 1] read from
`sampleTable`, reconciliation returns 1 (the value occurring first),
but the first value to reach the maximum count 2 in input iteration
order is 0, refuting the claimed tie-break. -/
theorem C8_tiebreak_cex :
    get_most_common sampleTable sampleTripIds = 1 ∧
    firstToReachMax (sampleTripIds.map sampleTable) = some 0 ∧
    (1 : ℕ) ≠ 0 := by
  refine ⟨by decide, by decide, by decide⟩

/-- C8 (amended): reconciliation returns a value of maximal occurrence
count among the trips' column values; when several values tie for the
maximum, the result is the tied value whose first occurrence comes
earliest in input iteration order. -/
theorem C8_majority_reconciler {α : Type} [DecidableEq α] [Inhabited α]
    (trips_df : String → α) (trip_ids : List String) :
    (∀ v, (trip_ids.map trips_df).count v ≤
      (trip_ids.map trips_df).count (get_most_common trips_df trip_ids)) ∧
    ∀ v, v ∈ trip_ids.map trips_df →
      (trip_ids.map trips_df).count v =
        (trip_ids.map trips_df).count (get_most_common trips_df trip_ids) →
      (trip_ids.map trips_df).indexOf (get_most_common trips_df trip_ids) ≤
        (trip_ids.map trips_df).indexOf v := by
  constructor
  · intro v
    exact count_le_count_most_common _ v
  · intro v hv htie
    exact most_common_first_on_tie _ v hv htie

theorem C8_majority_reconciler_witness :
    (0 : ℕ) ∈ sampleTripIds.map sampleTable ∧
    (sampleTripIds.map sampleTable).count 0 =
      (sampleTripIds.map sampleTable).count (get_most_common sampleTable sampleTripIds) ∧
    (sampleTripIds.map sampleTable).count 2 ≤
      (sampleTripIds.map sampleTable).count (get_most_common sampleTable sampleTripIds) ∧
    (sampleTripIds.map sampleTable).indexOf (get_most_common sampleTable sampleTripIds) ≤
      (sampleTripIds.map sampleTable).indexOf 0 :=
  ⟨by decide, by decide,
    (C8_majority_reconciler sampleTable sampleTripIds).1 2,
    (C8_majority_reconciler sampleTable sampleTripIds).2 0 (by decide) (by decide)⟩

/-- C9: when a later offset's converted distance is out of range for
the remaining curve, `cut` returns a single-element result, the whole
remaining curve is appended as that offset's segment while also being
retained as the remainder, and (with the offset last) the output
carries the same geometry twice as overlapping duplicate segments. -/
theorem C9_out_of_range_duplicates {V : Type} (current : List Pt) (d : ℝ)
    (h : d / DEG_TO_M ≤ 0 ∨ lineLength current ≤ d / DEG_TO_M) :
    (∀ ds : List ℝ, segLoop current (d :: ds) =
      (segLoop current ds).map fun r => (current :: r.1, r.2)) ∧
    ∀ (e : ℝ) (v0 v1 : V), segment_by_distances current [e, d] [v0, v1] =
      some ([current, current], [v0, v1], [v1, v1]) := by
  have hcut : cut current (d / DEG_TO_M) = some [current] := by
    rw [cut, if_pos h]
  constructor
  · intro ds
    exact segLoop_cons_one ds hcut
  · intro e v0 v1
    have hsl : segLoop current [d] = some ([current], current) := by
      rw [segLoop_cons_one [] hcut, segLoop_nil, Option.map_some']
    simp only [segment_by_distances, List.tail_cons, hsl]
    rfl

theorem C9_out_of_range_duplicates_witness :
    lineLength lineA ≤ (220000:ℝ) / DEG_TO_M ∧
    segment_by_distances lineA [0, 220000] [(5:ℕ), 7] =
      some ([lineA, lineA], [5, 7], [7, 7]) := by
  have h : lineLength lineA ≤ (220000:ℝ) / DEG_TO_M := by
    rw [lineLength_lineA, DEG_TO_M_eq]
    norm_num
  exact ⟨h, (C9_out_of_range_duplicates lineA 220000 (Or.inr h)).2 0 5 7⟩

/-- C3 counterexample: on the unit-length line, the call with distances
[0, 100, 300] and values [5, 7, 9] returns three rows, not exactly two:
the two cut segments with value pairs (5,7) and (7,9) plus the final
remainder segment with pair (9,9). -/
theorem C3_segment_cex :
    segment_by_distances lineA [0, 100, 300] [(5:ℚ), 7, 9] =
      some ([[((0:ℝ), (0:ℝ)), ((1/1100 : ℝ), (0:ℝ))],
        [((1/1100 : ℝ), (0:ℝ)), ((1/275 : ℝ), (0:ℝ))],
        [((1/275 : ℝ), (0:ℝ)), ((1:ℝ), (0:ℝ))]], [5, 7, 9], [7, 9, 9]) ∧
    ([[((0:ℝ), (0:ℝ)), ((1/1100 : ℝ), (0:ℝ))],
      [((1/1100 : ℝ), (0:ℝ)), ((1/275 : ℝ), (0:ℝ))],
      [((1/275 : ℝ), (0:ℝ)), ((1:ℝ), (0:ℝ))]] : List (List Pt)).length ≠ 2 := by
  have hc1 : (100:ℝ) / DEG_TO_M = 1/1100 := by rw [DEG_TO_M_eq]; norm_num
  have hc3 : (300:ℝ) / DEG_TO_M = 3/1100 := by rw [DEG_TO_M_eq]; norm_num
  have hcutA : cut lineA ((100:ℝ) / DEG_TO_M) =
      some [[((0:ℝ), (0:ℝ)), ((1/1100 : ℝ), (0:ℝ))], lineB] := by
    rw [hc1, cut_lineA]
  have hcutB : cut lineB ((300:ℝ) / DEG_TO_M) =
      some [[((1/1100 : ℝ), (0:ℝ)), ((1/275 : ℝ), (0:ℝ))],
        [((1/275 : ℝ), (0:ℝ)), ((1:ℝ), (0:ℝ))]] := by
    rw [hc3, cut_lineB]
  have hsl : segLoop lineA [100, 300] =
      some ([[((0:ℝ), (0:ℝ)), ((1/1100 : ℝ), (0:ℝ))],
        [((1/1100 : ℝ), (0:ℝ)), ((1/275 : ℝ), (0:ℝ))]],
        [((1/275 : ℝ), (0:ℝ)), ((1:ℝ), (0:ℝ))]) := by
    rw [segLoop_cons_two [300] hcutA, segLoop_cons_two [] hcutB, segLoop_nil]
    rfl
  constructor
  · simp only [segment_by_distances, List.tail_cons, hsl]
    rfl
  · simp

/-- C3 (amended): on a proper curve long enough for the first converted
offset, whose remainder is proper and long enough for the second
converted offset, `segment_by_distances(curve, [0,100,300], [v1,v2,v3])`
yields three rows, in order: the two cut segments with value pairs
(v1,v2) and (v2,v3), plus the final remainder with pair (v3,v3); the
three segments keep the curve's endpoints, their lengths sum to the
curve's length, and their concatenation traces the curve's path set
exactly. -/
theorem C3_segment_three_rows (line : List Pt) (v1 v2 v3 : ℚ) (hp : Proper line)
    (hlen : (100:ℝ) / DEG_TO_M < lineLength line)
    (hrest : ∀ a b : List Pt, cut line ((100:ℝ) / DEG_TO_M) = some [a, b] →
      Proper b ∧ (300:ℝ) / DEG_TO_M < lineLength b) :
    ∃ a b c e : List Pt,
      cut line ((100:ℝ) / DEG_TO_M) = some [a, b] ∧
      cut b ((300:ℝ) / DEG_TO_M) = some [c, e] ∧
      segment_by_distances line [0, 100, 300] [v1, v2, v3] =
        some ([a, c, e], [v1, v2, v3], [v2, v3, v3]) ∧
      a.head? = line.head? ∧ e.getLast? = line.getLast? ∧
      lineLength a + lineLength c + lineLength e = lineLength line ∧
      pathSet (a ++ c ++ e) = pathSet line := by
  have h100 : (0:ℝ) < 100 / DEG_TO_M := div_pos (by norm_num) DEG_TO_M_pos
  obtain ⟨a, b, hcut1, hane, hbne, hahead, hblast, halast, hbhead, hlen1, hpath1⟩ :=
    cut_correct hp h100 hlen
  obtain ⟨hpb, h300⟩ := hrest a b hcut1
  have h300p : (0:ℝ) < 300 / DEG_TO_M := div_pos (by norm_num) DEG_TO_M_pos
  obtain ⟨c, e, hcut2, hcne, hene, hchead, helast, hclast, hehead, hlen2, hpath2⟩ :=
    cut_correct hpb h300p h300
  refine ⟨a, b, c, e, hcut1, hcut2, ?_, hahead, helast.trans hblast, by linarith, ?_⟩
  · have hsl : segLoop line [100, 300] = some ([a, c], e) := by
      rw [segLoop_cons_two [300] hcut1, segLoop_cons_two [] hcut2, segLoop_nil]
      rfl
    simp only [segment_by_distances, List.tail_cons, hsl]
    rfl
  · have hce : c ++ e ≠ [] := fun hnil => hcne (List.append_eq_nil.mp hnil).1
    have hcehead : (c ++ e).head? = some (interpolate line ((100:ℝ) / DEG_TO_M)) := by
      rw [List.head?_append_of_ne_nil _ hcne, hchead, hbhead]
    have h1 := pathSet_append_ends hane hce halast hcehead
    have h2 := pathSet_append_ends hane hbne halast hbhead
    calc pathSet (a ++ c ++ e) = pathSet (a ++ (c ++ e)) := by rw [List.append_assoc]
    _ = (pathSet a ∪ seg (interpolate line ((100:ℝ) / DEG_TO_M))
        (interpolate line ((100:ℝ) / DEG_TO_M))) ∪ pathSet (c ++ e) := h1
    _ = (pathSet a ∪ seg (interpolate line ((100:ℝ) / DEG_TO_M))
        (interpolate line ((100:ℝ) / DEG_TO_M))) ∪ pathSet b := by rw [hpath2]
    _ = pathSet (a ++ b) := h2.symm
    _ = pathSet line := hpath1

theorem C3_segment_three_rows_witness :
    Proper lineA ∧
    (100:ℝ) / DEG_TO_M < lineLength lineA ∧
    (∀ a b : List Pt, cut lineA ((100:ℝ) / DEG_TO_M) = some [a, b] →
      Proper b ∧ (300:ℝ) / DEG_TO_M < lineLength b) ∧
    (∃ a b c e : List Pt,
      cut lineA ((100:ℝ) / DEG_TO_M) = some [a, b] ∧
      cut b ((300:ℝ) / DEG_TO_M) = some [c, e] ∧
      segment_by_distances lineA [0, 100, 300] [(5:ℚ), 7, 9] =
        some ([a, c, e], [5, 7, 9], [7, 9, 9]) ∧
      a.head? = lineA.head? ∧ e.getLast? = lineA.getLast? ∧
      lineLength a + lineLength c + lineLength e = lineLength lineA ∧
      pathSet (a ++ c ++ e) = pathSet lineA) := by
  have hc1 : (100:ℝ) / DEG_TO_M = 1/1100 := by rw [DEG_TO_M_eq]; norm_num
  have hp : Proper lineA := by unfold lineA; exact proper_pair _ _
  have hlen : (100:ℝ) / DEG_TO_M < lineLength lineA := by
    rw [hc1, lineLength_lineA]
    norm_num
  have hrest : ∀ a b : List Pt, cut lineA ((100:ℝ) / DEG_TO_M) = some [a, b] →
      Proper b ∧ (300:ℝ) / DEG_TO_M < lineLength b := by
    intro a b hcut
    rw [hc1, cut_lineA] at hcut
    have h' := Option.some.inj hcut
    injection h' with h1 h2
    injection h2 with h3 h4
    have hb : b = lineB := h3.symm
    subst hb
    refine ⟨by unfold lineB; exact proper_pair _ _, ?_⟩
    rw [DEG_TO_M_eq, lineLength_lineB]
    norm_num
  exact ⟨hp, hlen, hrest, C3_segment_three_rows lineA 5 7 9 hp hlen hrest⟩

/-- C4 counterexample: for the out-and-back curve `loopLine` and the
interior distance 3/2 (its length is 2), `cut` returns `None` rather
than an ordered pair of pieces, because every vertex projects to an
arc-length position at most 1 and the Python loop falls off the end. -/
theorem C4_cut_cex :
    0 < (3/2 : ℝ) ∧ (3/2 : ℝ) < lineLength loopLine ∧ cut loopLine (3/2) = none := by
  refine ⟨by norm_num, ?_, cut_loopLine_none⟩
  rw [lineLength_loopLine]
  norm_num

/-- C4 (amended): for every curve each of whose vertices projects onto
its own cumulative arc-length position (`Proper`, which `cut` implicitly
assumes, and which fails for self-overlapping curves) and every
distance strictly inside the curve, `cut` returns the ordered pair
[before, after]: the pieces keep the curve's endpoints, share the
interpolated split point as their common endpoint, have lengths summing
to the original length, and their concatenation traces the original
path set exactly. -/
theorem C4_cut_splits (l : List Pt) (d : ℝ) (hp : Proper l)
    (hd0 : 0 < d) (hdL : d < lineLength l) :
    ∃ before after,
      cut l d = some [before, after] ∧
      before.head? = l.head? ∧ after.getLast? = l.getLast? ∧
      before.getLast? = some (interpolate l d) ∧
      after.head? = some (interpolate l d) ∧
      lineLength before + lineLength after = lineLength l ∧
      pathSet (before ++ after) = pathSet l := by
  obtain ⟨b, a, hcut, -, -, h1, h2, h3, h4, h5, h6⟩ := cut_correct hp hd0 hdL
  exact ⟨b, a, hcut, h1, h2, h3, h4, h5, h6⟩

theorem C4_cut_splits_witness :
    Proper lineC ∧ 0 < (1:ℝ) ∧ (1:ℝ) < lineLength lineC ∧
    (∃ before after,
      cut lineC 1 = some [before, after] ∧
      before.head? = lineC.head? ∧ after.getLast? = lineC.getLast? ∧
      before.getLast? = some (interpolate lineC 1) ∧
      after.head? = some (interpolate lineC 1) ∧
      lineLength before + lineLength after = lineLength lineC ∧
      pathSet (before ++ after) = pathSet lineC) := by
  have hp : Proper lineC := by unfold lineC; exact proper_pair _ _
  have hL : (1:ℝ) < lineLength lineC := by
    rw [lineLength_lineC]
    norm_num
  exact ⟨hp, by norm_num, hL, C4_cut_splits lineC 1 hp (by norm_num) hL⟩

/-- C10: coordinate snapping is idempotent: snapping an
already-snapped coordinate onto the same geometry returns it unchanged,
because the snapped point lies on the curve and so projects to a
position at distance zero from itself. -/
theorem C10_snap_idempotent (c : Pt) (g : List Pt) :
    snap_coord (snap_coord c g) g = snap_coord c g := by
  cases g with
  | nil => rfl
  | cons p rest =>
    cases rest with
    | nil => rfl
    | cons q rest' =>
      exact snap_coord_fixed _ _ (interpolate_projGo_mem c (p :: q :: rest') p q rest' rfl)

end GtfsBus
